import Mathlib

/-!
Verification development for the decision-graph engine in
src/tools/dna-graph.py.  The Python functions are shallowly embedded as
executable Lean definitions; Python dicts become association lists
(insertion-ordered, unique keys as in a dict), Python sets become lists with
membership-guarded insertion, and the one Python exception relevant here
(the ValueError that list.index can raise inside the cycle-detection DFS)
is modelled with Except.  Recursive traversals are given an explicit fuel
argument so that every definition is structurally recursive and can be
evaluated by the kernel; the fuel values chosen at each call site dominate
the depth or iteration count of the corresponding Python loop, and where a
general theorem depends on it, fuel sufficiency is proved.
-/

/-! ## Generic helpers: string order and stable sort

Python compares strings by code points and `sorted` is a stable sort; the
insertion sort below is stable, so it computes the same list.  (These are
spelled out on character lists because the kernel cannot reduce the
built-in String order.) -/

def charsLe : List Char → List Char → Bool
  | [], _ => true
  | _ :: _, [] => false
  | a :: as, b :: bs =>
    if a.val.toNat < b.val.toNat then true
    else if b.val.toNat < a.val.toNat then false
    else charsLe as bs

def strLe (a b : String) : Bool := charsLe a.toList b.toList

def insertLe (le : α → α → Bool) (a : α) : List α → List α
  | [] => [a]
  | b :: bs => if le b a then b :: insertLe le a bs else a :: b :: bs

def sortLe (le : α → α → Bool) (l : List α) : List α := l.foldr (insertLe le) []

def charsStartsWith : List Char → List Char → Bool
  | [], _ => true
  | _ :: _, [] => false
  | a :: as, b :: bs => a == b && charsStartsWith as bs

/-- Split a character list at newline characters (model of str.split("\n")). -/
def splitLines : List Char → List (List Char)
  | [] => [[]]
  | c :: cs =>
    if c == '\n' then [] :: splitLines cs
    else match splitLines cs with
      | [] => [[c]]
      | l :: ls => (c :: l) :: ls

/-! ## Data model

A decision node as loaded by load_graph: the frontmatter fields the engine
reads, the scope tag attached by the loader, and the body text.  A
depends_on entry is either a bare ID string or a structured mapping of
which only the "id" key is used (see get_deps_list / get_dependents). -/

inductive DepEntry where
  | plain (id : String)
  | structured (id : Option String)
deriving DecidableEq, Repr

structure DNode where
  title : Option String := none
  date : Option String := none
  level : Option Int := none
  state : Option String := none
  stakes : Option String := none
  depends_on : List DepEntry := []
  scope : String := "project"
  body : String := ""
deriving DecidableEq, Repr

/-- The in-memory graph: an insertion-ordered mapping from ID to node
(a Python dict; key uniqueness is assumed where a theorem needs it). -/
abbrev Graph := List (String × DNode)

def keys (g : Graph) : List String := g.map Prod.fst

/-- Python `sorted(nodes.items())` (keys are unique, so tuple order is key order). -/
def sortedItems (g : Graph) : Graph := sortLe (fun a b => strLe a.1 b.1) g

/-- Python `sorted(nodes.keys())`. -/
def sortedKeys (g : Graph) : List String := sortLe strLe (keys g)

def VALID_STATES : List String := ["suggested", "committed", "superseded"]

def VALID_STAKES : List String := ["high", "medium", "low"]

def VALID_LEVELS : List Int := [1, 2, 3, 4]

/-- Python truthiness of an optional string (None and "" are falsy). -/
def strTruthy : Option String → Bool
  | none => false
  | some s => s ≠ ""

/-- get_deps_list (lines 525-533): flat list of dependency IDs; a structured
entry contributes its "id" value only when that value is truthy. -/
def get_deps_list (n : DNode) : List String :=
  n.depends_on.filterMap fun d =>
    match d with
    | .plain s => some s
    | .structured (some s) => if s = "" then none else some s
    | .structured none => none

/-- The dependency ID a raw entry carries for get_dependents (lines 514-522),
which does not apply the truthiness filter. -/
def depEntryId : DepEntry → Option String
  | .plain s => some s
  | .structured o => o

/-- get_dependents (lines 514-522): IDs of nodes whose depends_on mentions
node_id, one occurrence per matching entry (the Python loop appends per
entry, so duplicated entries yield duplicated results). -/
def get_dependents (g : Graph) (node_id : String) : List String :=
  g.flatMap fun p =>
    (p.2.depends_on.filter (fun d => depEntryId d = some node_id)).map fun _ => p.1

/-! ## State transition validator (lines 284-297) -/

def LEGAL_TRANSITIONS : List (String × String) :=
  [("suggested", "committed"), ("suggested", "superseded"), ("committed", "superseded")]

/-- validate_transition: same-state is a no-op; otherwise only the pairs in
LEGAL_TRANSITIONS are accepted. -/
def validate_transition (old_state new_state : String) : Bool × Option String :=
  if old_state = new_state then (true, none)
  else if LEGAL_TRANSITIONS.contains (old_state, new_state) then (true, none)
  else (false, some ("Illegal state transition: " ++ old_state ++ " → " ++ new_state))

/-! ## Pre-mutation validator for single-field updates (lines 388-478) -/

/-- The value passed to validate_for_set: cmd_set parses a string, an int
(for level) or a list of IDs (for depends_on). -/
inductive SetValue where
  | str (v : String)
  | list (v : List String)
  | int (v : Int)
deriving DecidableEq, Repr

/-- Display form of a SetValue, used only inside error strings. -/
def setValueText : SetValue → String
  | .str v => v
  | .int v => toString v
  | .list v => "[" ++ String.intercalate ", " (v.map fun s => "\x27" ++ s ++ "\x27") ++ "]"

def nonexistentDepMsg (nid dep : String) : String :=
  nid ++ ": depends_on references non-existent " ++ dep

def selfDepMsg (nid : String) : String := nid ++ ": self-dependency"

def levelInvMsg (nid : String) (myLevel : Int) (dep : String) (depLevel : Int) : String :=
  nid ++ " (level " ++ toString myLevel ++ "): depends on " ++ dep ++
    " (level " ++ toString depLevel ++ ") — level inversion"

def ironMsg (nid dep : String) : String :=
  nid ++ ": constitution depends on project " ++ dep ++ " (iron rule violation)"

def vfsCycleMsg (nid dep : String) : String :=
  nid ++ ": this change would create a cycle through " ++ dep

def cannotCommitMsg (nid dep depState : String) : String :=
  nid ++ ": cannot commit — upstream " ++ dep ++ " is \x27" ++ depState ++ "\x27"

/-- Adjacency used by the incremental cycle check of the depends_on branch
(lines 434-442): every existing node keeps its outgoing edges filtered to
existing targets, except nid whose old edges are removed; nid maps to the
proposed list (as a set, modelled by dedup).  adj.get on an absent key
yields the empty set. -/
def setAdjFun (nodes : Graph) (nid : String) (deps : List String) : String → List String :=
  fun x =>
    if x = nid then deps.dedup
    else match nodes.lookup x with
      | some n => ((get_deps_list n).filter fun d => (nodes.lookup d).isSome).dedup
      | none => []

/-- The iterative reachability search of the incremental cycle checks
(lines 443-454): a work stack (top at the head here; Python pushes and pops
at the end, which only permutes the traversal order and cannot change
whether the target is found), a visited set, and a fuel bound on the number
of loop iterations (the Python loop runs at most once per push, and pushes
are bounded by the total adjacency size; sufficiency is proved below where
a theorem needs it). -/
def stackSearch (adj : String → List String) (target : String) :
    Nat → List String → List String → Bool
  | 0, _, _ => false
  | _ + 1, [], _ => false
  | fuel + 1, current :: stack, visited =>
    if current = target then true
    else if visited.contains current then stackSearch adj target fuel stack visited
    else stackSearch adj target fuel (adj current ++ stack) (current :: visited)

/-- Fuel that dominates the iteration count of one stackSearch run: one more
than the number of possible pushes (the initial element plus the whole
adjacency of every node). -/
def searchFuel (nodes : Graph) (deps : List String) : Nat :=
  2 + deps.length + (nodes.map fun p => (get_deps_list p.2).length).sum

/-- The depends_on branch per-dependency existence/self-reference errors
(lines 417-421). -/
def vfsDepErrs (nodes : Graph) (nid : String) (deps : List String) : List String :=
  deps.filterMap fun dep_id =>
    if (nodes.lookup dep_id).isNone then some (nonexistentDepMsg nid dep_id)
    else if dep_id = nid then some (selfDepMsg nid)
    else none

/-- The depends_on branch level-inversion warnings (lines 422-425). -/
def vfsDepWarns (nodes : Graph) (nid : String) (myLevel : Option Int) (deps : List String) :
    List String :=
  deps.filterMap fun dep_id =>
    match nodes.lookup dep_id with
    | none => none
    | some dep =>
      if dep_id = nid then none
      else
        match dep.level, myLevel with
        | some dl, some ml => if dl > ml then some (levelInvMsg nid ml dep_id dl) else none
        | _, _ => none

/-- The depends_on branch iron-rule errors (lines 427-431). -/
def vfsIronErrs (nodes : Graph) (nid : String) (node : DNode) (deps : List String) :
    List String :=
  if node.scope = "constitution" then
    deps.filterMap fun dep_id =>
      match nodes.lookup dep_id with
      | some dep => if dep.scope = "project" then some (ironMsg nid dep_id) else none
      | none => none
  else []

/-- The depends_on branch incremental cycle errors (lines 433-454): only run
when deps is non-empty and no earlier error fired; one error per proposed
dependency from which the stack search reaches nid. -/
def vfsCycleErrs (nodes : Graph) (nid : String) (node : DNode) (deps : List String) :
    List String :=
  if deps ≠ [] ∧ vfsDepErrs nodes nid deps ++ vfsIronErrs nodes nid node deps = [] then
    let adj := setAdjFun nodes nid deps
    deps.filterMap fun dep_id =>
      if stackSearch adj nid (searchFuel nodes deps) [dep_id] [] then
        some (vfsCycleMsg nid dep_id)
      else none
  else []

/-- validate_for_set (lines 388-478), translated branch by branch; errors are
appended in source order, so each branch is the concatenation of its
component lists. -/
def validate_for_set (nid field : String) (value : SetValue) (nodes : Graph) :
    List String × List String :=
  match nodes.lookup nid with
  | none => ([nid ++ ": not found in graph"], [])
  | some node =>
    if field = "state" then
      let old_state := node.state.getD "suggested"
      let tr :=
        match value with
        | .str v => validate_transition old_state v
        | v => (false, some ("Illegal state transition: " ++ old_state ++ " → " ++ setValueText v))
      let errs1 : List String := if tr.1 then [] else [nid ++ ": " ++ (tr.2.getD "")]
      let errs2 : List String :=
        if value = .str "committed" ∧ errs1 = [] then
          (get_deps_list node).filterMap fun dep_id =>
            match nodes.lookup dep_id with
            | none => none
            | some dep =>
              let dep_state := dep.state.getD "unknown"
              if dep_state ≠ "committed" then some (cannotCommitMsg nid dep_id dep_state)
              else none
        else []
      (errs1 ++ errs2, [])
    else if field = "depends_on" then
      let deps := match value with | .list v => v | _ => []
      (vfsDepErrs nodes nid deps ++ vfsIronErrs nodes nid node deps ++
         vfsCycleErrs nodes nid node deps,
       vfsDepWarns nodes nid node.level deps)
    else if field = "level" then
      match value with
      | .int v =>
        if VALID_LEVELS.contains v then
          ([],
           (get_deps_list node).filterMap fun dep_id =>
             match nodes.lookup dep_id with
             | some dep =>
               match dep.level with
               | some dl => if dl > v then some (levelInvMsg nid v dep_id dl) else none
               | none => none
             | none => none)
        else ([nid ++ ": invalid level \x27" ++ toString v ++ "\x27 (must be 1-4)"], [])
      | v => ([nid ++ ": invalid level \x27" ++ setValueText v ++ "\x27 (must be 1-4)"], [])
    else if field = "stakes" then
      match value with
      | .str v =>
        if VALID_STAKES.contains v then ([], [])
        else ([nid ++ ": invalid stakes \x27" ++ v ++ "\x27 (must be high/medium/low)"], [])
      | v => ([nid ++ ": invalid stakes \x27" ++ setValueText v ++ "\x27 (must be high/medium/low)"], [])
    else if field = "title" then
      match value with
      | .str v =>
        if v.toList.all Char.isWhitespace then ([nid ++ ": title cannot be empty"], [])
        else ([], [])
      | _ => ([nid ++ ": title cannot be empty"], [])
    else
      (["Unknown field: " ++ field ++ " (valid: state, depends_on, level, stakes, title)"], [])

/-- cmd_set write path (lines 1571-1653), persisted outcome only: the command
validates first and rewrites the record file only when the error list is
empty; a blocking error exits before any write, leaving the persisted
record unchanged (modelled as none). -/
def cmd_set (nodes : Graph) (nid field : String) (value : SetValue) :
    Option (String × String × SetValue) :=
  if (nodes.lookup nid).isNone then none
  else if (validate_for_set nid field value nodes).1 = [] then some (nid, field, value)
  else none

/-! ## Graph loading (lines 485-511)

The filesystem boundary (globbing the two directories and parsing each
file) is external (spec section 6); load_graph receives, per partition and
in sorted-filename order, the parse result of each file: none when the file
has no frontmatter or no id key (such files are silently skipped), some
(id, fields) otherwise.  An ID collision with an already-loaded record
prints an error and exits the process (sys.exit(1)) — the fatal abort,
modelled as Except.error. -/

def collisionMsg (nid prevScope scope : String) : String :=
  "ERROR: ID collision — " ++ nid ++ " exists in both " ++ prevScope ++ " and " ++ scope

def loadStep (scope : String) (acc : Except String Graph)
    (pf : Option (String × DNode)) : Except String Graph :=
  match acc with
  | .error e => .error e
  | .ok nodes =>
    match pf with
    | none => .ok nodes
    | some (nid, fm) =>
      match nodes.lookup nid with
      | some prev => .error (collisionMsg nid prev.scope scope)
      | none => .ok (nodes ++ [(nid, { fm with scope := scope })])

def loadFiles (scope : String) (files : List (Option (String × DNode))) :
    Except String Graph → Except String Graph :=
  fun acc => files.foldl (loadStep scope) acc

/-- load_graph: constitution partition first (when the directory exists),
then the project partition. -/
def load_graph (hasConstitutionDir : Bool)
    (constitutionFiles projectFiles : List (Option (String × DNode))) :
    Except String Graph :=
  loadFiles "project" projectFiles
    (if hasConstitutionDir then loadFiles "constitution" constitutionFiles (.ok []) else .ok [])

/-- The IDs carried by the parsed files, in load order. -/
def loadIds (hasConstitutionDir : Bool)
    (constitutionFiles projectFiles : List (Option (String × DNode))) : List String :=
  ((if hasConstitutionDir then constitutionFiles else []) ++ projectFiles).filterMap
    fun pf => pf.map Prod.fst

/-! ## Whole-graph validator (cmd_validate, lines 611-794)

The body-text lint layer (checks B1-B4 and B6: stale references, broken
cross-references, supersession claims, config-driven terminology and
deleted-artifact scans) is regex- and config-driven and declared an
external collaborator by the spec (sections 1 and 4.2, last bullet); it
only ever contributes warnings.  cmd_validate therefore takes it as a
function argument, and every theorem below holds for an arbitrary such
layer. -/

def missingSectionMsg (nid sec : String) : String :=
  nid ++ ": missing required section ## " ++ sec

/-- One required-section test: the Python regex
`^## {section}\s*$` with re.MULTILINE, i.e. some line consists of
"## ", the section name, and trailing whitespace only. -/
def hasSection (body : String) (sec : String) : Bool :=
  (splitLines body.toList).any fun line =>
    charsStartsWith ("## " ++ sec).toList line &&
      (line.drop ("## " ++ sec).toList.length).all Char.isWhitespace

/-- Checks 1-7 of cmd_validate (lines 617-656): the per-node error list, in
append order. -/
def perNodeErrs (g : Graph) (nid : String) (n : DNode) : List String :=
  (if charsStartsWith "DEC-".toList nid.toList then [] else [nid ++ ": ID must start with DEC-"]) ++
  (match n.level with
   | none => [nid ++ ": missing level"]
   | some l =>
     if VALID_LEVELS.contains l then []
     else [nid ++ ": invalid level \x27" ++ toString l ++ "\x27 (must be 1-4)"]) ++
  (match n.state with
   | some s =>
     if s ≠ "" ∧ ¬ VALID_STATES.contains s then
       [nid ++ ": invalid state \x27" ++ s ++ "\x27 (must be suggested/committed/superseded)"]
     else []
   | none => []) ++
  (match n.stakes with
   | some s =>
     if s ≠ "" ∧ ¬ VALID_STAKES.contains s then
       [nid ++ ": invalid stakes \x27" ++ s ++ "\x27 (must be high/medium/low)"]
     else []
   | none => []) ++
  ((get_deps_list n).filterMap fun dep_id =>
    if (g.lookup dep_id).isNone then some (nonexistentDepMsg nid dep_id) else none)

/-- Checks 2, 4 and 7 of cmd_validate: the per-node warning list. -/
def perNodeWarns (nid : String) (n : DNode) : List String :=
  (if strTruthy n.title then [] else [nid ++ ": missing title"]) ++
  (if strTruthy n.date then [] else [nid ++ ": missing date"]) ++
  (if strTruthy n.state then [] else [nid ++ ": missing state"]) ++
  (["Decision", "Reasoning", "Assumptions", "Tradeoffs"].filterMap fun sec =>
    if hasSection n.body sec then none else some (missingSectionMsg nid sec))

/-- Adjacency of the forward-edge graph used by check 8 (lines 659-663):
edges to existing targets only; adj.get on an absent key yields []. -/
def buildAdj (g : Graph) : String → List String :=
  fun nid =>
    match g.lookup nid with
    | some n => (get_deps_list n).filter fun d => (g.lookup d).isSome
    | none => []

/-- Mutable state of the three-color DFS: the color dict (none for IDs
outside it) and the errors appended so far. -/
structure CycleSt where
  color : String → Option Nat
  errs : List String

def setColor (st : CycleSt) (u : String) (c : Nat) : CycleSt :=
  { st with color := fun x => if x = u then some c else st.color x }

/-- The cycle message of lines 674-676: the path from the first occurrence
of v back to itself, joined with arrows. -/
def cycleMsgOf (path : List String) (v : String) : String :=
  "Cycle detected: " ++
    String.intercalate " → " (path.drop (path.findIdx fun x => x == v) ++ [v])

/-- The recursive dfs of lines 668-680.  GRAY = 1, BLACK = 2, WHITE = 0.  On
meeting a GRAY neighbour the Python code calls path.index(v): when v is not
on the current path (possible because a node that detected a cycle is left
GRAY forever) this raises ValueError, which propagates out of cmd_validate;
that is the Except.error case.  The Bool in the fold state records the
early `return` after a cycle was reported (the node is then never painted
BLACK).  Fuel bounds the recursion depth: each nested call paints a fresh
WHITE node GRAY first, so the depth never exceeds the node count and the
fuel passed by runCycleCheck is never exhausted. -/
def dfsVisit (adj : String → List String) :
    Nat → String → List String → CycleSt → Except String CycleSt
  | 0, _, _, _ => .error "RecursionError: maximum recursion depth exceeded"
  | fuel + 1, u, path, st =>
    let r :=
      (adj u).foldl
        (fun acc v =>
          match acc with
          | .error e => .error e
          | .ok (true, s) => .ok (true, s)
          | .ok (false, s) =>
            match s.color v with
            | none => .ok (false, s)
            | some c =>
              if c = 1 then
                if v ∈ path then
                  .ok (true, { s with errs := s.errs ++ [cycleMsgOf path v] })
                else .error ("ValueError: " ++ v ++ " is not in list")
              else if c = 0 then
                match dfsVisit adj fuel v (path ++ [v]) s with
                | .error e => .error e
                | .ok s2 => .ok (false, s2)
              else .ok (false, s))
        ((.ok (false, setColor st u 1)) : Except String (Bool × CycleSt))
    match r with
    | .error e => .error e
    | .ok (true, s) => .ok s
    | .ok (false, s) => .ok (setColor s u 2)

/-- Check 8 (lines 658-684): initialize every key WHITE, then start a DFS
from each still-WHITE node in insertion order; returns the cycle errors in
the order they were appended, or the propagated exception. -/
def runCycleCheck (g : Graph) : Except String (List String) :=
  let adj := buildAdj g
  let init : CycleSt :=
    { color := fun x => if (g.lookup x).isSome then some 0 else none, errs := [] }
  let run :=
    (keys g).foldl
      (fun acc nid =>
        match acc with
        | .error e => .error e
        | .ok st =>
          if st.color nid = some 0 then dfsVisit adj (g.length + 1) nid [nid] st
          else .ok st)
      ((.ok init) : Except String CycleSt)
  match run with
  | .error e => .error e
  | .ok st => .ok st.errs

/-- Check 9 (lines 687-691): orphan warnings. -/
def orphanWarns (g : Graph) : List String :=
  (sortedItems g).filterMap fun p =>
    if get_deps_list p.2 = [] ∧ get_dependents g p.1 = [] then
      some (p.1 ++ ": orphan (no upstream or downstream edges)")
    else none

/-- Check 10 (lines 694-702): level-inversion warnings. -/
def levelInvWarns (g : Graph) : List String :=
  (sortedItems g).flatMap fun p =>
    match p.2.level with
    | none => []
    | some my_level =>
      (get_deps_list p.2).filterMap fun dep_id =>
        match g.lookup dep_id with
        | some dep =>
          match dep.level with
          | some dl => if dl > my_level then some (levelInvMsg p.1 my_level dep_id dl) else none
          | none => none
        | none => none

/-- Check 11 (lines 705-710) as (offending node, offending dependency)
pairs, in emission order; the error strings are the image of these pairs
under ironMsg. -/
def ironPairs (g : Graph) : List (String × String) :=
  (sortedItems g).flatMap fun p =>
    if p.2.scope ≠ "constitution" then []
    else
      (get_deps_list p.2).filterMap fun dep_id =>
        match g.lookup dep_id with
        | some m => if m.scope = "project" then some (p.1, dep_id) else none
        | none => none

def ironErrs (g : Graph) : List String := (ironPairs g).map fun p => ironMsg p.1 p.2

/-- Check 12 (lines 713-722): state-health errors. -/
def healthErrs (g : Graph) : List String :=
  (sortedItems g).flatMap fun p =>
    if p.2.state ≠ some "committed" then []
    else
      (get_deps_list p.2).filterMap fun dep_id =>
        match g.lookup dep_id with
        | some m =>
          if m.state = some "superseded" then
            some (p.1 ++ ": committed but upstream " ++ dep_id ++ " is superseded")
          else if m.state = some "suggested" then
            some (p.1 ++ ": committed but upstream " ++ dep_id ++ " is still suggested")
          else none
        | none => none

/-- Check B5 (lines 784-792): level ≥ 2 with no dependencies and not already
counted as a plain orphan. -/
def existingOrphans (g : Graph) : List String :=
  g.filterMap fun p =>
    if get_deps_list p.2 = [] ∧ get_dependents g p.1 = [] then some p.1 else none

def b5Warns (g : Graph) : List String :=
  (sortedItems g).filterMap fun p =>
    match p.2.level with
    | none => none
    | some l =>
      if l ≥ 2 ∧ get_deps_list p.2 = [] ∧ p.1 ∉ existingOrphans g then
        some (p.1 ++ " [missing-dep]: no depends_on — L" ++ toString l ++
          " decisions should have upstream dependencies")
      else none

/-- cmd_validate (lines 611-794).  Errors and warnings accumulate in source
order: the per-node checks 1-7 over sorted items, then the DFS cycle
errors, then checks 9-12, then the external body-lint warnings (skipped
for empty bodies, line 728-729), then B5.  If the DFS raises, the whole
call raises and nothing is returned. -/
def cmd_validate (bodyLint : Graph → String → DNode → List String) (g : Graph) :
    Except String (List String × List String) :=
  match runCycleCheck g with
  | .error e => .error e
  | .ok cycErrs =>
    .ok
      (((sortedItems g).flatMap fun p => perNodeErrs g p.1 p.2) ++ cycErrs ++
         ironErrs g ++ healthErrs g,
       ((sortedItems g).flatMap fun p => perNodeWarns p.1 p.2) ++ orphanWarns g ++
         levelInvWarns g ++
         ((sortedItems g).flatMap fun p => if p.2.body = "" then [] else bodyLint g p.1 p.2) ++
         b5Warns g)

/-! ## Cascade propagation engine (cmd_cascade lines 797-891,
cmd_cascade_reverse lines 894-987)

Both commands run the same wave loop and differ only in which neighbours a
processed node expands to and in the reason text; they are therefore
embedded as two instantiations of one loop.  Python iterates
sorted(changed) where changed is a set (hence sorted-deduplicated), adds a
node to visited before scanning its neighbours, and records an effect and
a next-wave entry for every neighbour occurrence not yet visited. -/

structure CascadeEffect where
  node : String
  current_state : String
  reason : String
  /-- In Python the key is present only when true; modelled as a Bool. -/
  cross_directory : Bool
deriving DecidableEq, Repr

def scopeOf (g : Graph) (nid : String) : String :=
  match g.lookup nid with
  | some n => n.scope
  | none => "project"

/-- The effects one processed node contributes, given the visited set as it
stands right after the node itself was added to it. -/
def processNode (g : Graph) (cands : String → List String)
    (reasonFmt : String → String → String) (visited : List String) (nid : String) :
    List CascadeEffect :=
  (cands nid).filterMap fun dep_id =>
    if visited.contains dep_id then none
    else
      some
        { node := dep_id
          current_state :=
            (match g.lookup dep_id with | some n => n.state.getD "unknown" | none => "unknown")
          reason := reasonFmt nid dep_id
          cross_directory := scopeOf g nid ≠ scopeOf g dep_id }

/-- One iteration of the while loop: process sorted(changed), skipping
already-visited nodes; returns the wave effects and the updated visited
list. -/
def cascadeStep (g : Graph) (cands : String → List String)
    (reasonFmt : String → String → String)
    (acc : List CascadeEffect × List String) (nid : String) :
    List CascadeEffect × List String :=
  if acc.2.contains nid then acc
  else
    let vis := nid :: acc.2
    (acc.1 ++ processNode g cands reasonFmt vis nid, vis)

def cascadeRound (g : Graph) (cands : String → List String)
    (reasonFmt : String → String → String) (changed visited : List String) :
    List CascadeEffect × List String :=
  (sortLe strLe changed.dedup).foldl (cascadeStep g cands reasonFmt) ([], visited)

/-- The wave loop.  next_changed is the set of nodes that received an effect
this wave; the wave is kept only when non-empty (and an empty wave also
empties next_changed, so the loop then stops).  Fuel bounds the number of
iterations: every iteration that emits anything visits at least one new
graph key. -/
def cascadeLoop (g : Graph) (cands : String → List String)
    (reasonFmt : String → String → String) :
    Nat → List String → List String → List (List CascadeEffect)
  | 0, _, _ => []
  | fuel + 1, changed, visited =>
    if changed = [] then []
    else
      let (effects, visited2) := cascadeRound g cands reasonFmt changed visited
      let next := (effects.map (·.node)).dedup
      let rest := cascadeLoop g cands reasonFmt fuel next visited2
      if effects = [] then rest else effects :: rest

/-- Downstream neighbour expansion: all dependents (always existing keys). -/
def fwdCands (g : Graph) : String → List String := fun nid => get_dependents g nid

/-- Upstream neighbour expansion: the dependencies that exist in the graph
(the `dep_id in nodes` half of the loop condition at line 916). -/
def revCands (g : Graph) : String → List String :=
  fun nid =>
    match g.lookup nid with
    | some n => (get_deps_list n).filter fun d => (g.lookup d).isSome
    | none => []

/-- cmd_cascade: unknown start node is a reported failure with no waves
computed; otherwise the wave list (wave k of the output is entry k-1; the
Python wave counter never skips a number because an empty wave ends the
loop). -/
def cmd_cascade (g : Graph) (start_node : String) :
    Except String (List (List CascadeEffect)) :=
  if (g.lookup start_node).isNone then
    .error ("Error: " ++ start_node ++ " not found in graph")
  else
    .ok (cascadeLoop g (fwdCands g) (fun nid _ => "depends on " ++ nid)
      (g.length + 2) [start_node] [])

/-- cmd_cascade_reverse: the upstream direction. -/
def cmd_cascade_reverse (g : Graph) (start_node : String) :
    Except String (List (List CascadeEffect)) :=
  if (g.lookup start_node).isNone then
    .error ("Error: " ++ start_node ++ " not found in graph")
  else
    .ok (cascadeLoop g (revCands g) (fun nid _ => nid ++ " depends on this")
      (g.length + 2) [start_node] [])

/-! ## Frontier analyzer (lines 541-604 and cmd_frontier lines 1210-1445) -/

/-- Reverse adjacency for the transitive-downstream computation (lines
546-551): the set of nodes depending on d, recorded only for existing d. -/
def reverseAdj (g : Graph) (d : String) : List String :=
  if (g.lookup d).isSome then
    g.filterMap fun p => if (get_deps_list p.2).contains d then some p.1 else none
  else []

/-- The per-node BFS of _compute_transitive_downstream (lines 553-563): FIFO
queue, visited accumulates in first-visit order.  Fuel bounds iterations;
every iteration either pops a visited node or visits a new one, and each
fresh visit pushes at most the node count, so the quadratic bound below is
never reached on the calls made here. -/
def downstreamBFS (g : Graph) : Nat → List String → List String → List String
  | 0, _, visited => visited
  | fuel + 1, queue, visited =>
    match queue with
    | [] => visited
    | current :: rest =>
      if visited.contains current then downstreamBFS g fuel rest visited
      else
        let visited2 := visited ++ [current]
        downstreamBFS g fuel
          (rest ++ (reverseAdj g current).filter fun x => ¬ visited2.contains x) visited2

/-- _compute_transitive_downstream as a function from ID to the visited set
of its BFS. -/
def transitiveDownstream (g : Graph) (nid : String) : List String :=
  downstreamBFS g ((g.length + 1) * (g.length + 1)) (reverseAdj g nid) []

/-- One expansion step of the _critical_path BFS (lines 580-587): scan the
dependencies of current in order, and for each existing, unvisited,
non-committed dependency record visited/depth/parent and enqueue it.
State: (visited, depth, parent, queue additions). -/
def cpExpand (g : Graph) (current : String) (d : Nat)
    (st : List String × List (String × Nat) × List (String × String) × List (String × Nat)) :
    List String × List (String × Nat) × List (String × String) × List (String × Nat) :=
  (get_deps_list ((g.lookup current).getD {})).foldl
    (fun st dep_id =>
      let (vis, dep, par, adds) := st
      match g.lookup dep_id with
      | none => st
      | some n =>
        if ¬ vis.contains dep_id ∧ n.state ≠ some "committed" then
          (vis ++ [dep_id], dep ++ [(dep_id, d + 1)], par ++ [(dep_id, current)],
           adds ++ [(dep_id, d + 1)])
        else st)
    st

/-- The BFS loop of _critical_path; returns the depth and parent maps. -/
def cpBFS (g : Graph) :
    Nat → List (String × Nat) → List String → List (String × Nat) → List (String × String) →
      List (String × Nat) × List (String × String)
  | 0, _, _, depth, parent => (depth, parent)
  | fuel + 1, queue, visited, depth, parent =>
    match queue with
    | [] => (depth, parent)
    | (current, d) :: rest =>
      let (vis2, dep2, par2, adds) := cpExpand g current d (visited, depth, parent, [])
      cpBFS g fuel (rest ++ adds) vis2 dep2 par2

/-- Path reconstruction of lines 598-604: follow parent pointers from the
deepest node until the target, collecting the nodes passed. -/
def cpWalk (parent : List (String × String)) (target : String) :
    Nat → String → List String
  | 0, _ => []
  | fuel + 1, current =>
    if current = target then []
    else current :: cpWalk parent target fuel ((parent.lookup current).getD target)

/-- _critical_path (lines 567-604). -/
def _critical_path (g : Graph) (target_nid : String) : List String :=
  let (depth, parent) := cpBFS g (g.length + 2) [(target_nid, 0)] [target_nid] [(target_nid, 0)] []
  if parent = [] then
    (get_deps_list ((g.lookup target_nid).getD {})).filter fun d =>
      match g.lookup d with
      | some n => n.state ≠ some "committed"
      | none => false
  else
    let ks := parent.map Prod.fst
    let dOf := fun x => ((depth.lookup x).getD 0)
    let deepest :=
      match ks with
      | [] => target_nid
      | k :: rest => rest.foldl (fun best x => if dOf x > dOf best then x else best) k
    cpWalk parent target_nid (parent.length + 1) deepest

structure FrontierEntry where
  id : String
  title : String
  level : Option Int
  stakes : Option String
  scope : String
  downstream_weight : Nat
  downstream_ids : List String
  blockers : List String := []
  critical_path : List String := []
  critical_path_length : Nat := 0
deriving DecidableEq, Repr

/-- The uncommitted-dependency filter of cmd_frontier (lines 1251-1254):
dependencies present in the graph whose state is not committed (absent
dependency IDs are skipped by the `d in nodes` test). -/
def uncommittedDeps (g : Graph) (n : DNode) : List String :=
  (get_deps_list n).filter fun d =>
    match g.lookup d with
    | some m => m.state ≠ some "committed"
    | none => false

/-- The committable-now entry dict of cmd_frontier (lines 1256-1264). -/
def fpEntry (g : Graph) (nid : String) (n : DNode) : FrontierEntry :=
  { id := nid
    title := n.title.getD ""
    level := n.level
    stakes := n.stakes
    scope := n.scope
    downstream_weight := (transitiveDownstream g nid).length
    downstream_ids := sortLe strLe (transitiveDownstream g nid) }

/-- The blocked entry: the same dict extended with blockers and critical
path (lines 1269-1271). -/
def fpBlockedEntry (g : Graph) (nid : String) (n : DNode) : FrontierEntry :=
  { fpEntry g nid n with
    blockers := uncommittedDeps g n
    critical_path := _critical_path g nid
    critical_path_length := (_critical_path g nid).length }

/-- Loop body of the partition loop. -/
def fpStep (g : Graph) (acc : List FrontierEntry × List FrontierEntry) (nid : String) :
    List FrontierEntry × List FrontierEntry :=
  match g.lookup nid with
  | none => acc
  | some n =>
    if n.state.getD "unknown" ≠ "suggested" then acc
    else if uncommittedDeps g n = [] then (acc.1 ++ [fpEntry g nid n], acc.2)
    else (acc.1, acc.2 ++ [fpBlockedEntry g nid n])

/-- The partition loop of cmd_frontier (lines 1244-1272), before sorting:
walk the sorted keys, keep nodes in state suggested, and append each to
committable_now or blocked. -/
def frontierPartition (g : Graph) : List FrontierEntry × List FrontierEntry :=
  (sortedKeys g).foldl (fpStep g) ([], [])

/-- Python `x["level"] or 99`: None and 0 are falsy. -/
def levelOr99 (l : Option Int) : Int :=
  match l with
  | some v => if v = 0 then 99 else v
  | none => 99

/-- Sort key relation for committable_now (line 1275): descending downstream
weight, then ascending level. -/
def committableLe (a b : FrontierEntry) : Bool :=
  b.downstream_weight < a.downstream_weight ||
    (a.downstream_weight == b.downstream_weight && levelOr99 a.level ≤ levelOr99 b.level)

/-- Sort key relation for blocked (line 1276): ascending critical-path
length, then descending downstream weight. -/
def blockedLe (a b : FrontierEntry) : Bool :=
  a.critical_path_length < b.critical_path_length ||
    (a.critical_path_length == b.critical_path_length &&
      b.downstream_weight ≤ a.downstream_weight)

/-- The committable_now list of cmd_frontier, after its stable sort. -/
def frontierCommittable (g : Graph) : List FrontierEntry :=
  sortLe committableLe (frontierPartition g).1

/-- The blocked list of cmd_frontier, after its stable sort. -/
def frontierBlocked (g : Graph) : List FrontierEntry :=
  sortLe blockedLe (frontierPartition g).2

/-- Potential function bounding the remaining iterations of stackSearch:
stack size plus the total adjacency size of the unvisited part of supp
(a finite support outside of which adj is empty).  Every iteration strictly
decreases it. -/
def searchPotential (adj : String → List String) (supp : Finset String)
    (stack visited : List String) : Nat :=
  stack.length + Finset.sum (supp.filter fun x => x ∉ visited) (fun x => (adj x).length)

/-! ## Reachability notions used to state the claims -/

/-- Reachability (zero or more edges) in an adjacency function. -/
inductive Reach (adj : String → List String) : String → String → Prop
  | refl (x : String) : Reach adj x x
  | step {x y z : String} : y ∈ adj x → Reach adj y z → Reach adj x z

/-- A directed cycle passing through nid. -/
def HasCycleThrough (adj : String → List String) (nid : String) : Prop :=
  ∃ d ∈ adj nid, Reach adj d nid

def Acyclic (adj : String → List String) : Prop := ∀ x, ¬ HasCycleThrough adj x

/-- Adjacency of the existing forward-edge graph (edges to existing targets
only), the graph whose acyclicity the whole-graph validator checks. -/
def forwardAdj (g : Graph) : String → List String := buildAdj g

/-- An explicit path from x to t; the list records the vertices strictly
before t is reached (so it starts with x whenever x is not already t). -/
inductive PathTo (adj : String → List String) (t : String) : String → List String → Prop
  | nil : PathTo adj t t []
  | cons {x y l} : y ∈ adj x → PathTo adj t y l → PathTo adj t x (x :: l)

/-- Reachability from s in exactly n expansion steps of a neighbour
function; the wave distance of the cascade claims. -/
inductive ReachIn (cands : String → List String) (s : String) : Nat → String → Prop
  | zero : ReachIn cands s 0 s
  | succ {n x y} : ReachIn cands s n x → y ∈ cands x → ReachIn cands s (n + 1) y

/-- Shortest-path distance d from s to u (uniform edge weights). -/
def MinDist (cands : String → List String) (s u : String) (d : Nat) : Prop :=
  ReachIn cands s d u ∧ ∀ j < d, ¬ ReachIn cands s j u

/-- The corrected cascade contract: every node at shortest-path distance
d ≥ 1 from the start occurs in wave d (index d-1) and in no earlier wave,
and every occurrence anywhere is of a node reachable within index+1
steps (so unreachable nodes never occur). -/
def FirstWaveAtDistance (cands : String → List String) (start : String)
    (waves : List (List CascadeEffect)) : Prop :=
  (∀ u d, MinDist cands start u d → 1 ≤ d →
     (∃ w, waves.get? (d - 1) = some w ∧ u ∈ w.map (·.node)) ∧
     (∀ i w, waves.get? i = some w → u ∈ w.map (·.node) → d - 1 ≤ i)) ∧
  (∀ i w u, waves.get? i = some w → u ∈ w.map (·.node) →
     ∃ j, j ≤ i + 1 ∧ ReachIn cands start j u)

/-! ## Concrete graphs used by the counterexamples and witnesses -/

def mkNode (scope : String) (level : Int) (state : String) (deps : List String) : DNode :=
  { title := some "T"
    date := some "2024-01-01"
    level := some level
    state := some state
    depends_on := deps.map .plain
    scope := scope }

/-- A trivial body-lint layer (empty lint configuration). -/
def noLint : Graph → String → DNode → List String := fun _ _ _ => []

/-- Failing input for C1: DEC-001 and DEC-002 form a cycle, DEC-003 also
depends on DEC-002.  After the cycle is reported, DEC-002 stays GRAY, and
the traversal from DEC-003 reaches it with a path that does not contain
it. -/
def gCrash : Graph :=
  [("DEC-001", mkNode "project" 1 "suggested" ["DEC-002"]),
   ("DEC-002", mkNode "project" 1 "suggested" ["DEC-001"]),
   ("DEC-003", mkNode "project" 1 "suggested" ["DEC-002"])]

/-- Two-petal graph for C2: one DFS root, two back-edges on distinct
branches. -/
def gPetal : Graph :=
  [("DEC-001", mkNode "project" 1 "suggested" ["DEC-002", "DEC-003"]),
   ("DEC-002", mkNode "project" 1 "suggested" ["DEC-001"]),
   ("DEC-003", mkNode "project" 1 "suggested" ["DEC-001"])]

/-- The three-cycle DEC-001 → DEC-002 → DEC-003 → DEC-001, and the three
graphs obtained by deleting one of its edges. -/
def gTri : Graph :=
  [("DEC-001", mkNode "project" 1 "suggested" ["DEC-002"]),
   ("DEC-002", mkNode "project" 1 "suggested" ["DEC-003"]),
   ("DEC-003", mkNode "project" 1 "suggested" ["DEC-001"])]

def gTriNo1 : Graph :=
  [("DEC-001", mkNode "project" 1 "suggested" []),
   ("DEC-002", mkNode "project" 1 "suggested" ["DEC-003"]),
   ("DEC-003", mkNode "project" 1 "suggested" ["DEC-001"])]

def gTriNo2 : Graph :=
  [("DEC-001", mkNode "project" 1 "suggested" ["DEC-002"]),
   ("DEC-002", mkNode "project" 1 "suggested" []),
   ("DEC-003", mkNode "project" 1 "suggested" ["DEC-001"])]

def gTriNo3 : Graph :=
  [("DEC-001", mkNode "project" 1 "suggested" ["DEC-002"]),
   ("DEC-002", mkNode "project" 1 "suggested" ["DEC-003"]),
   ("DEC-003", mkNode "project" 1 "suggested" [])]

/-- Cascade counterexample graph for C3: DEC-002 depends on DEC-001, and
DEC-003 depends on both. -/
def gDup : Graph :=
  [("DEC-001", mkNode "project" 1 "suggested" []),
   ("DEC-002", mkNode "project" 2 "suggested" ["DEC-001"]),
   ("DEC-003", mkNode "project" 2 "suggested" ["DEC-001", "DEC-002"])]

/-- C4 counterexample: DEC-001 already committed with a still-suggested
upstream. -/
def gC4 : Graph :=
  [("DEC-001", mkNode "project" 1 "committed" ["DEC-002"]),
   ("DEC-002", mkNode "project" 1 "suggested" [])]

/-- The chain A(committed) ← B ← C ← D of the C6 scenario. -/
def gChain : Graph :=
  [("DEC-001", mkNode "project" 1 "committed" []),
   ("DEC-002", mkNode "project" 2 "suggested" ["DEC-001"]),
   ("DEC-003", mkNode "project" 3 "suggested" ["DEC-002"]),
   ("DEC-004", mkNode "project" 4 "suggested" ["DEC-003"])]

/-- gChain after committing DEC-002 and DEC-003 in order. -/
def gChainDone : Graph :=
  [("DEC-001", mkNode "project" 1 "committed" []),
   ("DEC-002", mkNode "project" 2 "committed" ["DEC-001"]),
   ("DEC-003", mkNode "project" 3 "committed" ["DEC-002"]),
   ("DEC-004", mkNode "project" 4 "suggested" ["DEC-003"])]

/-- C6 counterexample: the target DEC-004 has two uncommitted branches; the
critical path follows only the deeper one. -/
def gBranch : Graph :=
  [("DEC-001", mkNode "project" 1 "suggested" []),
   ("DEC-002", mkNode "project" 2 "suggested" ["DEC-001"]),
   ("DEC-003", mkNode "project" 2 "suggested" []),
   ("DEC-004", mkNode "project" 3 "suggested" ["DEC-002", "DEC-003"])]

/-- gBranch after committing every node on the critical path of DEC-004. -/
def gBranchDone : Graph :=
  [("DEC-001", mkNode "project" 1 "committed" []),
   ("DEC-002", mkNode "project" 2 "committed" ["DEC-001"]),
   ("DEC-003", mkNode "project" 2 "suggested" []),
   ("DEC-004", mkNode "project" 3 "suggested" ["DEC-002", "DEC-003"])]

/-- A constitution node depending on a project node (C7 witness). -/
def gIron : Graph :=
  [("DEC-001", mkNode "constitution" 1 "suggested" ["DEC-002"]),
   ("DEC-002", mkNode "project" 1 "suggested" [])]

/-- The C8 scenario: DEC-002 already depends on DEC-001. -/
def gPair : Graph :=
  [("DEC-001", mkNode "project" 1 "suggested" []),
   ("DEC-002", mkNode "project" 2 "suggested" ["DEC-001"])]

/-- A suggested node whose dependencies all reference absent IDs (C10). -/
def gDangling : Graph :=
  [("DEC-001", mkNode "project" 2 "suggested" ["DEC-098", "DEC-099"])]

/-! # Theorems

First the shared helper lemmas, then one theorem per claim (with its
witness or counterexample where required). -/

theorem insertLe_perm (le : α → α → Bool) (a : α) (l : List α) :
    (insertLe le a l).Perm (a :: l) := by
  induction l with
  | nil => exact List.Perm.refl _
  | cons b bs ih =>
    simp only [insertLe]
    split
    · exact (ih.cons b).trans (List.Perm.swap a b bs)
    · exact List.Perm.refl _

theorem sortLe_perm (le : α → α → Bool) (l : List α) : (sortLe le l).Perm l := by
  induction l with
  | nil => exact List.Perm.refl _
  | cons a as ih => exact (insertLe_perm le a (sortLe le as)).trans (ih.cons a)

theorem sortLe_mem {le : α → α → Bool} {l : List α} {a : α} :
    a ∈ sortLe le l ↔ a ∈ l :=
  (sortLe_perm le l).mem_iff

theorem sortedKeys_mem {g : Graph} {k : String} : k ∈ sortedKeys g ↔ k ∈ keys g :=
  sortLe_mem

theorem sortedKeys_nodup {g : Graph} (h : (keys g).Nodup) : (sortedKeys g).Nodup :=
  ((sortLe_perm strLe (keys g)).nodup_iff).mpr h

theorem sortedItems_perm (g : Graph) : (sortedItems g).Perm g :=
  sortLe_perm _ g

theorem lookup_isSome_iff {β : Type} (l : List (String × β)) (k : String) :
    (l.lookup k).isSome ↔ k ∈ l.map Prod.fst := by
  induction l with
  | nil => simp [List.lookup]
  | cons p ps ih =>
    obtain ⟨a, b⟩ := p
    by_cases h : k = a
    · subst h; simp [List.lookup]
    · have hf : (k == a) = false := beq_eq_false_iff_ne.mpr h
      simp [List.lookup, hf, ih, h]

theorem lookup_eq_none_iff {β : Type} (l : List (String × β)) (k : String) :
    l.lookup k = none ↔ k ∉ l.map Prod.fst := by
  rw [← lookup_isSome_iff, Option.isSome_iff_exists]
  constructor
  · intro h ⟨v, hv⟩; rw [h] at hv; cases hv
  · intro h
    cases hl : l.lookup k with
    | none => rfl
    | some v => exact absurd ⟨v, hl⟩ h

theorem lookup_mem {β : Type} {l : List (String × β)} {k : String} {v : β}
    (h : l.lookup k = some v) : (k, v) ∈ l := by
  induction l with
  | nil => cases h
  | cons p ps ih =>
    obtain ⟨a, b⟩ := p
    by_cases hk : k = a
    · subst hk
      simp only [List.lookup, beq_self_eq_true] at h
      cases h; exact List.mem_cons_self _ _
    · have hf : (k == a) = false := beq_eq_false_iff_ne.mpr hk
      simp only [List.lookup, hf] at h
      exact List.mem_cons_of_mem _ (ih h)

theorem mem_lookup_of_nodup {β : Type} {l : List (String × β)}
    (hnd : (l.map Prod.fst).Nodup) {k : String} {v : β} (h : (k, v) ∈ l) :
    l.lookup k = some v := by
  induction l with
  | nil => cases h
  | cons p ps ih =>
    obtain ⟨a, b⟩ := p
    simp only [List.map_cons, List.nodup_cons] at hnd
    rcases List.mem_cons.mp h with heq | hmem
    · cases heq; simp [List.lookup]
    · have hka : k ≠ a := by
        rintro rfl
        exact hnd.1 (List.mem_map.mpr ⟨(k, v), hmem, rfl⟩)
      have hf : (k == a) = false := beq_eq_false_iff_ne.mpr hka
      simp only [List.lookup, hf]
      exact ih hnd.2 hmem

/-- C1 (code_bug): whole-graph validation is NOT crash-free.  On gCrash the
cycle DEC-001 ↔ DEC-002 is reported first and DEC-002 is left in the
in-progress color; the later traversal from DEC-003 then reaches DEC-002
with a path that does not contain it, and path.index raises ValueError, so
cmd_validate terminates abnormally and returns no findings at all. -/
theorem C1_validate_crashes_on_gray_cross_edge :
    cmd_validate noLint gCrash = .error "ValueError: DEC-002 is not in list" := by
  rfl

/-- C2 counterexample: in gPetal a single depth-first traversal (all three
nodes are reachable from DEC-001, the only traversal root) reports TWO
cycle errors, refuting "at most one cycle error is reported per unvisited
component". -/
theorem C2_counterexample_two_cycle_errors_in_one_component :
    (∃ w, cmd_validate noLint gPetal =
      .ok (["Cycle detected: DEC-001 → DEC-002 → DEC-001",
            "Cycle detected: DEC-001 → DEC-003 → DEC-001"], w)) ∧
    Reach (forwardAdj gPetal) "DEC-001" "DEC-002" ∧
    Reach (forwardAdj gPetal) "DEC-001" "DEC-003" :=
  ⟨⟨_, rfl⟩,
   Reach.step (by decide) (Reach.refl _),
   Reach.step (by decide) (Reach.refl _)⟩

/-- C2 (amended): the concrete triangle facts hold as stated: the cycle
DEC-001 → DEC-002 → DEC-003 → DEC-001 yields exactly one cycle error
naming a rotation of the three nodes, and removing any one of the three
edges yields zero errors. -/
theorem C2_amended_triangle_exact_cycle :
    (∃ w, cmd_validate noLint gTri =
      .ok (["Cycle detected: DEC-001 → DEC-002 → DEC-003 → DEC-001"], w)) ∧
    (∃ w, cmd_validate noLint gTriNo1 = .ok ([], w)) ∧
    (∃ w, cmd_validate noLint gTriNo2 = .ok ([], w)) ∧
    (∃ w, cmd_validate noLint gTriNo3 = .ok ([], w)) :=
  ⟨⟨_, rfl⟩, ⟨_, rfl⟩, ⟨_, rfl⟩, ⟨_, rfl⟩⟩

/-- C3 counterexample: cascading from DEC-001 in gDup, the node DEC-003
receives a wave entry in wave 1 (as a direct dependent of DEC-001) and
another one in wave 2 (as a dependent of DEC-002, which is processed in
wave 2 before DEC-003 is marked visited), refuting "each affected node
occurs at most once across all waves". -/
theorem C3_counterexample_node_occurs_in_two_waves :
    ∃ w1 w2, cmd_cascade gDup "DEC-001" = .ok [w1, w2] ∧
      "DEC-003" ∈ w1.map (·.node) ∧ "DEC-003" ∈ w2.map (·.node) :=
  ⟨_, _, rfl, by decide, by decide⟩

/-- C4 counterexample: DEC-001 of gC4 is already committed and has the
still-suggested dependency DEC-002; re-setting its state to the SAME value
committed (old = new) returns a non-empty error list, refuting the claim
that old = new always yields an empty error list. -/
theorem C4_counterexample_same_state_committed_rejected :
    gC4.lookup "DEC-001" = some (mkNode "project" 1 "committed" ["DEC-002"]) ∧
    (validate_for_set "DEC-001" "state" (.str "committed") gC4).1 ≠ [] :=
  ⟨rfl, by decide⟩

/-- C6 counterexample: in gBranch the target DEC-004 has the two uncommitted
branches DEC-002 ← DEC-001 and DEC-003; the critical path follows only the
deeper branch, and after committing every node on it, in order, the target
still has the uncommitted dependency DEC-003 and is still blocked —
refuting "leaves the target with no uncommitted dependencies". -/
theorem C6_counterexample_target_still_blocked :
    _critical_path gBranch "DEC-004" = ["DEC-001", "DEC-002"] ∧
    (∃ n, gBranchDone.lookup "DEC-004" = some n ∧ uncommittedDeps gBranchDone n ≠ []) ∧
    (frontierBlocked gBranchDone).map (·.id) = ["DEC-004"] :=
  ⟨rfl, ⟨_, rfl, by decide⟩, rfl⟩

/-- C6 (amended): on the single chain DEC-001(committed) ← DEC-002 ←
DEC-003 ← DEC-004(target) the critical path of the target is exactly
[DEC-002, DEC-003] in that order, and committing those two nodes in order
leaves the target committable (no uncommitted dependencies). -/
theorem C6_amended_chain_critical_path :
    _critical_path gChain "DEC-004" = ["DEC-002", "DEC-003"] ∧
    (frontierCommittable gChainDone).map (·.id) = ["DEC-004"] ∧
    (frontierBlocked gChainDone).map (·.id) = [] :=
  ⟨rfl, rfl, rfl⟩

/-- C9 counterexample: two files of the SAME (project) partition carrying
the same ID make load_graph abort fatally even though no ID is present in
both partitions (the constitution partition is empty), refuting "aborts
exactly when some ID is present in both partitions". -/
theorem C9_counterexample_same_partition_collision_aborts :
    load_graph false []
      [some ("DEC-001", mkNode "project" 1 "suggested" []),
       some ("DEC-001", mkNode "project" 1 "suggested" [])] =
      .error "ERROR: ID collision — DEC-001 exists in both project and project" := by
  rfl

theorem validate_transition_ok (old_state new_state : String) :
    ((validate_transition old_state new_state).1 = true) ↔
      (old_state = new_state ∨ (old_state, new_state) ∈ LEGAL_TRANSITIONS) := by
  by_cases h1 : old_state = new_state
  · simp [validate_transition, h1]
  · by_cases h2 : (old_state, new_state) ∈ LEGAL_TRANSITIONS
    · simp [validate_transition, h1, h2, List.contains, List.elem_iff]
    · simp [validate_transition, h1, h2, List.contains, List.elem_iff]

/-- C4 (amended): for a node present in the graph with current state old,
setting field state to new succeeds (empty error list) exactly when the
transition is same-state or on the legal lattice AND, whenever the new
value is committed (including the same-state committed → committed case),
every dependency present in the graph is committed; every other pair is
rejected with a non-empty error list. -/
theorem C4_amended_state_lattice (g : Graph) (nid : String) (n : DNode)
    (old_state new_state : String)
    (hn : g.lookup nid = some n) (hold : n.state.getD "suggested" = old_state) :
    (validate_for_set nid "state" (.str new_state) g).1 = [] ↔
      ((old_state = new_state ∨ (old_state, new_state) ∈ LEGAL_TRANSITIONS) ∧
       (new_state = "committed" →
         ∀ d ∈ get_deps_list n, ∀ m, g.lookup d = some m →
           m.state.getD "unknown" = "committed")) := by
  subst hold
  simp only [validate_for_set, hn]
  by_cases hok : (validate_transition (n.state.getD "suggested") new_state).1 = true
  · rw [← validate_transition_ok]
    simp only [hok, if_true, iff_true_intro hok, true_and]
    by_cases hc : new_state = "committed"
    · subst hc
      simp only [SetValue.str.injEq, and_true, if_true, List.nil_append, eq_self_iff_true,
        true_iff, forall_true_left, true_and, if_pos (And.intro rfl rfl)]
      rw [List.filterMap_eq_nil_iff]
      constructor
      · intro h d hd m hm
        have := h d hd
        rw [hm] at this
        by_contra hne
        simp [hne] at this
      · intro h d hd
        cases hl : g.lookup d with
        | none => simp [hl]
        | some m =>
          have := h d hd m hl
          simp [hl, this]
    · have hcond : ¬ ((SetValue.str new_state = SetValue.str "committed") ∧
          ([] : List String) = []) := by
        simp [SetValue.str.injEq, hc]
      simp [hok, hcond, hc]
  · have hfalse : (validate_transition (n.state.getD "suggested") new_state).1 = false := by
      cases hb : (validate_transition (n.state.getD "suggested") new_state).1
      · rfl
      · exact absurd hb hok
    rw [← validate_transition_ok]
    simp [hfalse, hok]

/-- Witness for C4: the legal transition suggested → superseded on a node of
gC4 goes through with an empty error list. -/
theorem C4_amended_state_lattice_witness :
    (validate_for_set "DEC-002" "state" (.str "superseded") gC4).1 = [] :=
  (C4_amended_state_lattice gC4 "DEC-002" (mkNode "project" 1 "suggested" [])
      "suggested" "superseded" rfl rfl).mpr
    ⟨Or.inr (by decide), fun hc => absurd hc (by decide)⟩

theorem fpStep_append (g : Graph) (a : List FrontierEntry × List FrontierEntry) (x : String) :
    fpStep g a x = (a.1 ++ (fpStep g ([], []) x).1, a.2 ++ (fpStep g ([], []) x).2) := by
  unfold fpStep
  cases g.lookup x with
  | none => simp
  | some n =>
    by_cases h1 : n.state.getD "unknown" ≠ "suggested"
    · simp [h1]
    · by_cases h2 : uncommittedDeps g n = [] <;> simp [h1, h2]

theorem foldl_fpStep (g : Graph) (l : List String) (acc : List FrontierEntry × List FrontierEntry) :
    l.foldl (fpStep g) acc =
      (acc.1 ++ l.flatMap (fun x => (fpStep g ([], []) x).1),
       acc.2 ++ l.flatMap (fun x => (fpStep g ([], []) x).2)) := by
  induction l generalizing acc with
  | nil => simp
  | cons x xs ih =>
    rw [List.foldl_cons, ih, fpStep_append]
    simp [List.append_assoc]

theorem fpStep_fst (g : Graph) (x : String) :
    (fpStep g ([], []) x).1 =
      (match g.lookup x with
       | some n =>
         if n.state.getD "unknown" = "suggested" ∧ uncommittedDeps g n = [] then [fpEntry g x n]
         else []
       | none => []) := by
  unfold fpStep
  cases g.lookup x with
  | none => rfl
  | some n =>
    by_cases h1 : n.state.getD "unknown" = "suggested"
    · by_cases h2 : uncommittedDeps g n = [] <;> simp [h1, h2]
    · simp [h1]

theorem fpStep_snd (g : Graph) (x : String) :
    (fpStep g ([], []) x).2 =
      (match g.lookup x with
       | some n =>
         if n.state.getD "unknown" = "suggested" ∧ uncommittedDeps g n ≠ [] then [fpBlockedEntry g x n]
         else []
       | none => []) := by
  unfold fpStep
  cases g.lookup x with
  | none => rfl
  | some n =>
    by_cases h1 : n.state.getD "unknown" = "suggested"
    · by_cases h2 : uncommittedDeps g n = [] <;> simp [h1, h2]
    · simp [h1]

theorem frontierPartition_fst_mem (g : Graph) (nid : String) :
    nid ∈ ((frontierPartition g).1.map (·.id)) ↔
      ∃ n, g.lookup nid = some n ∧ n.state.getD "unknown" = "suggested" ∧
        uncommittedDeps g n = [] := by
  unfold frontierPartition
  rw [foldl_fpStep]
  simp only [List.nil_append, List.mem_map, List.mem_flatMap]
  constructor
  · rintro ⟨e, ⟨x, hx, he⟩, hid⟩
    rw [fpStep_fst] at he
    revert he
    cases hl : g.lookup x with
    | none => intro he; cases he
    | some n =>
      by_cases hcond : n.state.getD "unknown" = "suggested" ∧ uncommittedDeps g n = []
      · intro he
        dsimp only at he
        rw [if_pos hcond, List.mem_singleton] at he
        subst he
        have : x = nid := hid
        subst this
        exact ⟨n, hl, hcond.1, hcond.2⟩
      · intro he
        dsimp only at he
        rw [if_neg hcond] at he
        cases he
  · rintro ⟨n, hln, hs, hu⟩
    refine ⟨fpEntry g nid n, ⟨nid, ?_, ?_⟩, rfl⟩
    · exact sortedKeys_mem.mpr ((lookup_isSome_iff g nid).mp (by rw [hln]; rfl))
    · rw [fpStep_fst, hln]
      simp [hs, hu]

theorem frontierPartition_snd_mem (g : Graph) (nid : String) :
    nid ∈ ((frontierPartition g).2.map (·.id)) ↔
      ∃ n, g.lookup nid = some n ∧ n.state.getD "unknown" = "suggested" ∧
        uncommittedDeps g n ≠ [] := by
  unfold frontierPartition
  rw [foldl_fpStep]
  simp only [List.nil_append, List.mem_map, List.mem_flatMap]
  constructor
  · rintro ⟨e, ⟨x, hx, he⟩, hid⟩
    rw [fpStep_snd] at he
    revert he
    cases hl : g.lookup x with
    | none => intro he; cases he
    | some n =>
      by_cases hcond : n.state.getD "unknown" = "suggested" ∧ uncommittedDeps g n ≠ []
      · intro he
        dsimp only at he
        rw [if_pos hcond, List.mem_singleton] at he
        subst he
        have : x = nid := hid
        subst this
        exact ⟨n, hl, hcond.1, hcond.2⟩
      · intro he
        dsimp only at he
        rw [if_neg hcond] at he
        cases he
  · rintro ⟨n, hln, hs, hu⟩
    refine ⟨fpBlockedEntry g nid n, ⟨nid, ?_, ?_⟩, rfl⟩
    · exact sortedKeys_mem.mpr ((lookup_isSome_iff g nid).mp (by rw [hln]; rfl))
    · rw [fpStep_snd, hln]
      simp [hs, hu]

theorem frontierCommittable_mem (g : Graph) (nid : String) :
    nid ∈ (frontierCommittable g).map (·.id) ↔
      nid ∈ ((frontierPartition g).1.map (·.id)) :=
  ((sortLe_perm committableLe (frontierPartition g).1).map (·.id)).mem_iff

theorem frontierBlocked_mem (g : Graph) (nid : String) :
    nid ∈ (frontierBlocked g).map (·.id) ↔
      nid ∈ ((frontierPartition g).2.map (·.id)) :=
  ((sortLe_perm blockedLe (frontierPartition g).2).map (·.id)).mem_iff

theorem uncommittedDeps_eq_nil_iff (g : Graph) (n : DNode) :
    uncommittedDeps g n = [] ↔
      ∀ d ∈ get_deps_list n, ∀ m, g.lookup d = some m → m.state = some "committed" := by
  unfold uncommittedDeps
  rw [List.filter_eq_nil_iff]
  constructor
  · intro h d hd m hm
    have := h d hd
    rw [hm] at this
    by_contra hne
    simp [hne] at this
  · intro h d hd
    cases hl : g.lookup d with
    | none => simp [hl]
    | some m => simp [hl, h d hd m hl]

/-- C5: a node of the graph in state suggested lands in exactly one of the
committable-now and blocked frontier lists — in committable-now exactly
when every dependency present in the graph is committed, else in
blocked. -/
theorem C5_frontier_partition_exactly_one (g : Graph) (nid : String) (n : DNode)
    (hn : g.lookup nid = some n) (hs : n.state = some "suggested") :
    ((nid ∈ (frontierCommittable g).map (·.id) ∧ nid ∉ (frontierBlocked g).map (·.id)) ∨
     (nid ∈ (frontierBlocked g).map (·.id) ∧ nid ∉ (frontierCommittable g).map (·.id))) ∧
    (nid ∈ (frontierCommittable g).map (·.id) ↔
      ∀ d ∈ get_deps_list n, ∀ m, g.lookup d = some m → m.state = some "committed") := by
  have hs' : n.state.getD "unknown" = "suggested" := by rw [hs]; rfl
  have hc := (frontierCommittable_mem g nid).trans (frontierPartition_fst_mem g nid)
  have hb := (frontierBlocked_mem g nid).trans (frontierPartition_snd_mem g nid)
  have hciff : nid ∈ (frontierCommittable g).map (·.id) ↔ uncommittedDeps g n = [] := by
    rw [hc]
    constructor
    · rintro ⟨n2, hn2, _, hu2⟩
      rw [hn] at hn2; injection hn2 with h; subst h
      exact hu2
    · intro hu; exact ⟨n, hn, hs', hu⟩
  have hbiff : nid ∈ (frontierBlocked g).map (·.id) ↔ uncommittedDeps g n ≠ [] := by
    rw [hb]
    constructor
    · rintro ⟨n2, hn2, _, hu2⟩
      rw [hn] at hn2; injection hn2 with h; subst h
      exact hu2
    · intro hu; exact ⟨n, hn, hs', hu⟩
  refine ⟨?_, hciff.trans (uncommittedDeps_eq_nil_iff g n)⟩
  by_cases hu : uncommittedDeps g n = []
  · exact Or.inl ⟨hciff.mpr hu, fun hmem => (hbiff.mp hmem) hu⟩
  · exact Or.inr ⟨hbiff.mpr hu, fun hmem => hu (hciff.mp hmem)⟩

/-- Witness for C5: DEC-004 of gChain is suggested with the uncommitted
dependency DEC-003, so the theorem puts it in the blocked list. -/
theorem C5_frontier_partition_exactly_one_witness :
    "DEC-004" ∈ (frontierBlocked gChain).map (·.id) := by
  rcases C5_frontier_partition_exactly_one gChain "DEC-004"
      (mkNode "project" 4 "suggested" ["DEC-003"]) rfl rfl with ⟨hxor, hiff⟩
  rcases hxor with ⟨hcm, _⟩ | ⟨hbm, _⟩
  · have := hiff.mp hcm "DEC-003" (by decide) (mkNode "project" 3 "suggested" ["DEC-002"]) rfl
    exact absurd this (by decide)
  · exact hbm

/-- C10: dependency IDs absent from the graph are ignored by the frontier
partition: committable-now is decided by the present dependencies alone, a
suggested node all of whose dependencies are absent is committable now, and
whole-graph validation (when it returns) reports each of those same absent
entries as a referential-integrity error. -/
theorem C10_dangling_deps_never_block (g : Graph) (nid : String) (n : DNode)
    (hn : g.lookup nid = some n) (hs : n.state = some "suggested") :
    (nid ∈ (frontierCommittable g).map (·.id) ↔
      ∀ d ∈ get_deps_list n, ∀ m, g.lookup d = some m → m.state = some "committed") ∧
    ((∀ d ∈ get_deps_list n, g.lookup d = none) →
      nid ∈ (frontierCommittable g).map (·.id)) ∧
    (∀ bodyLint E W, cmd_validate bodyLint g = .ok (E, W) →
      ∀ d ∈ get_deps_list n, g.lookup d = none → nonexistentDepMsg nid d ∈ E) := by
  have hmain := C5_frontier_partition_exactly_one g nid n hn hs
  refine ⟨hmain.2, ?_, ?_⟩
  · intro hall
    exact hmain.2.mpr fun d hd m hm => absurd hm (by rw [hall d hd]; intro h; cases h)
  · intro bodyLint E W hok d hd hnone
    have hmem : nonexistentDepMsg nid d ∈ perNodeErrs g nid n := by
      unfold perNodeErrs
      refine List.mem_append.mpr (Or.inr ?_)
      exact List.mem_filterMap.mpr ⟨d, hd, by simp [hnone]⟩
    unfold cmd_validate at hok
    cases hrc : runCycleCheck g with
    | error e => rw [hrc] at hok; cases hok
    | ok cyc =>
      rw [hrc] at hok
      injection hok with hok2
      injection hok2 with hE hW
      subst hE
      refine List.mem_append.mpr (Or.inl (List.mem_append.mpr (Or.inl
        (List.mem_append.mpr (Or.inl ?_)))))
      exact List.mem_flatMap.mpr
        ⟨(nid, n), (sortedItems_perm g).mem_iff.mpr (lookup_mem hn), hmem⟩

/-- Witness for C10: the suggested node DEC-001 of gDangling, whose two
dependencies both reference absent IDs, is committable now. -/
theorem C10_dangling_deps_never_block_witness :
    "DEC-001" ∈ (frontierCommittable gDangling).map (·.id) :=
  (C10_dangling_deps_never_block gDangling "DEC-001"
      (mkNode "project" 2 "suggested" ["DEC-098", "DEC-099"]) rfl rfl).2.1
    (by intro d hd; fin_cases hd <;> rfl)

theorem count_flatMap_eq_of_key {L : List (String × DNode)}
    (f : (String × DNode) → List (String × String))
    (hf : ∀ p q, q ∈ f p → q.1 = p.1)
    (hnd : (L.map Prod.fst).Nodup) {nid : String} {n : DNode} (hmem : (nid, n) ∈ L)
    (dep : String) :
    (L.flatMap f).count (nid, dep) = (f (nid, n)).count (nid, dep) := by
  induction L with
  | nil => cases hmem
  | cons p ps ih =>
    simp only [List.map_cons, List.nodup_cons] at hnd
    rw [List.flatMap_cons, List.count_append]
    rcases List.mem_cons.mp hmem with heq | hmem2
    · subst heq
      have hzero : (ps.flatMap f).count (nid, dep) = 0 := by
        rw [List.count_eq_zero]
        intro hin
        obtain ⟨q, hq, hqf⟩ := List.mem_flatMap.mp hin
        have := hf q (nid, dep) hqf
        exact hnd.1 (List.mem_map.mpr ⟨q, hq, this.symm⟩)
      rw [hzero, Nat.add_zero]
    · have hzero : (f p).count (nid, dep) = 0 := by
        rw [List.count_eq_zero]
        intro hin
        have h1 := hf p (nid, dep) hin
        exact hnd.1 (by
          rw [← h1]
          exact List.mem_map.mpr ⟨(nid, n), hmem2, h1 ▸ rfl⟩)
      rw [hzero, ih hnd.2 hmem2, Nat.zero_add]

theorem ironPairs_entry_count (g : Graph) (nid dep : String) (n : DNode)
    (hcs : n.scope = "constitution") (m : DNode)
    (hm : g.lookup dep = some m) (hps : m.scope = "project") :
    ((if n.scope ≠ "constitution" then [] else
        (get_deps_list n).filterMap fun dep_id =>
          match g.lookup dep_id with
          | some m2 => if m2.scope = "project" then some (nid, dep_id) else none
          | none => none) : List (String × String)).count (nid, dep) =
      (get_deps_list n).count dep := by
  rw [if_neg (by simp [hcs])]
  induction get_deps_list n with
  | nil => rfl
  | cons d ds ih =>
    by_cases hd : d = dep
    · subst hd
      simp [List.filterMap_cons, hm, hps, List.count_cons, ih]
    · cases hl : g.lookup d with
      | none => simp [List.filterMap_cons, hl, List.count_cons, ih, hd]
      | some m2 =>
        by_cases hsc : m2.scope = "project"
        · simp [List.filterMap_cons, hl, hsc, List.count_cons, ih, hd, Prod.ext_iff]
        · simp [List.filterMap_cons, hl, hsc, List.count_cons, ih, hd]

/-- C7: the iron rule.  For a constitution-scope node nid whose depends_on
contains exactly one entry for the project-scope node dep, the whole-graph
validator emits exactly one iron-rule error for the pair (nid, dep),
whatever the rest of the graph contains; every iron-rule error originates
from a constitution-scope node (a project-scope node never produces one);
and whenever cmd_validate returns, its error list contains the iron-rule
errors as a contiguous block. -/
theorem C7_iron_rule (bodyLint : Graph → String → DNode → List String) (g : Graph)
    (hnd : (keys g).Nodup) (nid dep : String) (n m : DNode)
    (hn : g.lookup nid = some n) (hcs : n.scope = "constitution")
    (hm : g.lookup dep = some m) (hps : m.scope = "project")
    (hcount : (get_deps_list n).count dep = 1) :
    (ironPairs g).count (nid, dep) = 1 ∧
    (∀ q ∈ ironPairs g, ∃ n2, g.lookup q.1 = some n2 ∧ n2.scope = "constitution") ∧
    (∀ E W, cmd_validate bodyLint g = .ok (E, W) →
      ∃ pre post, E = pre ++ (ironPairs g).map (fun q => ironMsg q.1 q.2) ++ post) := by
  have hndS : ((sortedItems g).map Prod.fst).Nodup :=
    ((sortedItems_perm g).map Prod.fst).nodup_iff.mpr hnd
  have hf : ∀ (p : String × DNode) (q : String × String),
      q ∈ (if p.2.scope ≠ "constitution" then ([] : List (String × String)) else
        (get_deps_list p.2).filterMap fun dep_id =>
          match g.lookup dep_id with
          | some m2 => if m2.scope = "project" then some (p.1, dep_id) else none
          | none => none) → q.1 = p.1 := by
    intro p q hq
    by_cases hscope : p.2.scope ≠ "constitution"
    · rw [if_pos hscope] at hq; cases hq
    · rw [if_neg hscope] at hq
      obtain ⟨d, hd, hmatch⟩ := List.mem_filterMap.mp hq
      revert hmatch
      cases hld : g.lookup d with
      | none => intro h; cases h
      | some m2 =>
        intro h
        dsimp only at h
        by_cases hp : m2.scope = "project"
        · rw [if_pos hp] at h
          injection h with h2
          rw [← h2]
        · rw [if_neg hp] at h; cases h
  refine ⟨?_, ?_, ?_⟩
  · unfold ironPairs
    rw [count_flatMap_eq_of_key _ hf hndS ((sortedItems_perm g).mem_iff.mpr (lookup_mem hn)) dep]
    exact (ironPairs_entry_count g nid dep n hcs m hm hps).trans hcount
  · intro q hq
    unfold ironPairs at hq
    obtain ⟨p, hp, hqf⟩ := List.mem_flatMap.mp hq
    by_cases hscope : p.2.scope ≠ "constitution"
    · rw [if_pos hscope] at hqf; cases hqf
    · have hq1 : q.1 = p.1 := hf p q (by rw [if_neg hscope]; rw [if_neg hscope] at hqf; exact hqf)
      refine ⟨p.2, ?_, not_ne_iff.mp hscope⟩
      rw [hq1]
      exact mem_lookup_of_nodup hnd ((sortedItems_perm g).mem_iff.mp hp)
  · intro E W hok
    unfold cmd_validate at hok
    cases hrc : runCycleCheck g with
    | error e => rw [hrc] at hok; cases hok
    | ok cyc =>
      rw [hrc] at hok
      injection hok with hok2
      injection hok2 with hE hW
      subst hE
      exact ⟨((sortedItems g).flatMap fun p => perNodeErrs g p.1 p.2) ++ cyc, healthErrs g,
        by rw [ironErrs]⟩

/-- Witness for C7 on gIron. -/
theorem C7_iron_rule_witness :
    (ironPairs gIron).count ("DEC-001", "DEC-002") = 1 :=
  (C7_iron_rule noLint gIron (by decide) "DEC-001" "DEC-002"
      (mkNode "constitution" 1 "suggested" ["DEC-002"]) (mkNode "project" 1 "suggested" [])
      rfl rfl rfl rfl (by decide)).1

theorem loadFiles_error (scope : String) (files : List (Option (String × DNode))) (e : String) :
    loadFiles scope files (.error e) = .error e := by
  induction files with
  | nil => rfl
  | cons pf fs ih =>
    unfold loadFiles at ih ⊢
    rw [List.foldl_cons]
    have hstep : loadStep scope (.error e) pf = .error e := rfl
    rw [hstep]
    exact ih

theorem loadFiles_spec (scope : String) (files : List (Option (String × DNode))) :
    ∀ nodes : Graph, (keys nodes).Nodup →
      (if (keys nodes ++ files.filterMap fun pf => pf.map Prod.fst).Nodup then
        ∃ g2, loadFiles scope files (.ok nodes) = .ok g2 ∧
          keys g2 = keys nodes ++ files.filterMap fun pf => pf.map Prod.fst
      else ∃ e, loadFiles scope files (.ok nodes) = .error e) := by
  induction files with
  | nil =>
    intro nodes hnd
    simp only [List.filterMap_nil, List.append_nil]
    rw [if_pos hnd]
    exact ⟨nodes, rfl, rfl⟩
  | cons pf fs ih =>
    intro nodes hnd
    cases pf with
    | none =>
      have hstep : loadFiles scope (none :: fs) (.ok nodes) = loadFiles scope fs (.ok nodes) := by
        unfold loadFiles
        rw [List.foldl_cons]
        rfl
      rw [hstep]
      have hids : ((none :: fs : List (Option (String × DNode))).filterMap
          fun pf => pf.map Prod.fst) = fs.filterMap fun pf => pf.map Prod.fst := by
        rw [List.filterMap_cons_none (by rfl)]
      rw [hids]
      exact ih nodes hnd
    | some p =>
      obtain ⟨nid, fm⟩ := p
      have hids : ((some (nid, fm) :: fs : List (Option (String × DNode))).filterMap
          fun pf => pf.map Prod.fst) = nid :: fs.filterMap fun pf => pf.map Prod.fst := by
        rw [List.filterMap_cons_some (by rfl)]
      rw [hids]
      have hstep : loadFiles scope (some (nid, fm) :: fs) (.ok nodes) =
          loadFiles scope fs (loadStep scope (.ok nodes) (some (nid, fm))) := by
        unfold loadFiles
        rw [List.foldl_cons]
      rw [hstep]
      cases hl : nodes.lookup nid with
      | some prev =>
        have hmem : nid ∈ keys nodes := (lookup_isSome_iff nodes nid).mp (by rw [hl]; rfl)
        have hdup : ¬ (keys nodes ++ nid :: fs.filterMap fun pf => pf.map Prod.fst).Nodup := by
          intro hnodup
          exact (List.nodup_append.mp hnodup).2.2 hmem (List.mem_cons_self _ _)
        rw [if_neg hdup]
        have hstep2 : loadStep scope (.ok nodes) (some (nid, fm)) =
            .error (collisionMsg nid prev.scope scope) := by
          simp [loadStep, hl]
        rw [hstep2, loadFiles_error]
        exact ⟨_, rfl⟩
      | none =>
        have hnotmem : nid ∉ keys nodes := (lookup_eq_none_iff nodes nid).mp hl
        have hstep2 : loadStep scope (.ok nodes) (some (nid, fm)) =
            .ok (nodes ++ [(nid, { fm with scope := scope })]) := by
          simp [loadStep, hl]
        rw [hstep2]
        have hkeys2 : keys (nodes ++ [(nid, { fm with scope := scope })]) =
            keys nodes ++ [nid] := by
          simp [keys]
        have hnd2 : (keys (nodes ++ [(nid, { fm with scope := scope })])).Nodup := by
          rw [hkeys2]
          rw [List.nodup_append]
          exact ⟨hnd, List.nodup_singleton _, fun a ha hb => by
            rw [List.mem_singleton] at hb
            subst hb
            exact hnotmem ha⟩
        have hih := ih (nodes ++ [(nid, { fm with scope := scope })]) hnd2
        rw [hkeys2, List.append_assoc, List.singleton_append] at hih
        exact hih

/-- C9 (amended): load_graph aborts fatally exactly when some decision ID
occurs twice among the loaded records — whether the duplicate crosses the
two partitions or sits inside a single one. -/
theorem C9_amended_load_abort_iff_duplicate_id (hc : Bool)
    (cf pf : List (Option (String × DNode))) :
    (∃ e, load_graph hc cf pf = .error e) ↔ ¬ (loadIds hc cf pf).Nodup := by
  unfold load_graph loadIds
  cases hc with
  | false =>
    simp only [Bool.false_eq_true, if_false, List.nil_append]
    have hspec := loadFiles_spec "project" pf [] (by simp [keys])
    simp only [keys, List.map_nil, List.nil_append] at hspec
    by_cases hdup : (pf.filterMap fun x => x.map Prod.fst).Nodup
    · rw [if_pos hdup] at hspec
      obtain ⟨g2, hg2, _⟩ := hspec
      constructor
      · rintro ⟨e, he⟩
        rw [hg2] at he
        cases he
      · intro h
        exact absurd hdup h
    · rw [if_neg hdup] at hspec
      exact ⟨fun _ => hdup, fun _ => hspec⟩
  | true =>
    simp only [if_true, List.filterMap_append]
    have hspec1 := loadFiles_spec "constitution" cf [] (by simp [keys])
    simp only [keys, List.map_nil, List.nil_append] at hspec1
    by_cases hdup1 : (cf.filterMap fun x => x.map Prod.fst).Nodup
    · rw [if_pos hdup1] at hspec1
      obtain ⟨g1, hg1, hkeys1⟩ := hspec1
      rw [hg1]
      have hspec2 := loadFiles_spec "project" pf g1 (by unfold keys; rw [hkeys1]; exact hdup1)
      unfold keys at hspec2
      rw [hkeys1] at hspec2
      by_cases hdup2 : ((cf.filterMap fun x => x.map Prod.fst) ++
          pf.filterMap fun x => x.map Prod.fst).Nodup
      · rw [if_pos hdup2] at hspec2
        obtain ⟨g2, hg2, _⟩ := hspec2
        constructor
        · rintro ⟨e, he⟩
          rw [hg2] at he
          cases he
        · intro h
          exact absurd hdup2 h
      · rw [if_neg hdup2] at hspec2
        exact ⟨fun _ => hdup2, fun _ => hspec2⟩
    · rw [if_neg hdup1] at hspec1
      obtain ⟨e, he⟩ := hspec1
      rw [he, loadFiles_error]
      constructor
      · intro _
        intro hnodup
        exact hdup1 (List.Nodup.of_append_left hnodup)
      · intro _
        exact ⟨e, rfl⟩

/-- Witness for C9: a cross-partition collision (the original fatal case)
does abort. -/
theorem C9_amended_load_abort_iff_duplicate_id_witness :
    ∃ e, load_graph true [some ("DEC-001", mkNode "constitution" 1 "suggested" [])]
        [some ("DEC-001", mkNode "project" 1 "suggested" [])] = .error e :=
  (C9_amended_load_abort_iff_duplicate_id true
      [some ("DEC-001", mkNode "constitution" 1 "suggested" [])]
      [some ("DEC-001", mkNode "project" 1 "suggested" [])]).mpr (by decide)

theorem pathTo_reach {adj : String → List String} {t s : String} {l : List String}
    (h : PathTo adj t s l) : Reach adj s t := by
  induction h with
  | nil => exact Reach.refl _
  | cons hy _ ih => exact Reach.step hy ih

theorem reach_pathTo {adj : String → List String} {s t : String} (h : Reach adj s t) :
    ∃ l, PathTo adj t s l := by
  induction h with
  | refl => exact ⟨[], PathTo.nil⟩
  | step hy _ ih =>
    obtain ⟨l, hl⟩ := ih
    exact ⟨_ :: l, PathTo.cons hy hl⟩

theorem pathTo_cons_of_ne {adj : String → List String} {t s : String} {l : List String}
    (h : PathTo adj t s l) (hne : s ≠ t) :
    ∃ y l2, l = s :: l2 ∧ y ∈ adj s ∧ PathTo adj t y l2 := by
  cases h with
  | nil => exact absurd rfl hne
  | cons hy hp => exact ⟨_, _, rfl, hy, hp⟩

theorem pathTo_mem_suffix {adj : String → List String} {t x : String} {l : List String}
    (h : PathTo adj t x l) :
    ∀ v ∈ l, ∃ l2, PathTo adj t v l2 ∧ l2.length ≤ l.length ∧ ∀ w ∈ l2, w ∈ l := by
  induction h with
  | nil => intro v hv; cases hv
  | cons hy hp ih =>
    intro v hv
    rcases List.mem_cons.mp hv with rfl | hv2
    · exact ⟨_ :: _, PathTo.cons hy hp, le_refl _, fun w hw => hw⟩
    · obtain ⟨l2, h2, hle, hsub⟩ := ih v hv2
      exact ⟨l2, h2, hle.trans (Nat.le_succ _),
        fun w hw => List.mem_cons_of_mem _ (hsub w hw)⟩

theorem reach_mono {a b : String → List String} (hab : ∀ x y, y ∈ a x → y ∈ b x)
    {s t : String} (h : Reach a s t) : Reach b s t := by
  induction h with
  | refl => exact Reach.refl _
  | step hy _ ih => exact Reach.step (hab _ _ hy) ih

theorem stackSearch_sound (adj : String → List String) (target : String) :
    ∀ fuel stack visited, stackSearch adj target fuel stack visited = true →
      ∃ s ∈ stack, Reach adj s target := by
  intro fuel
  induction fuel with
  | zero => intro stack visited h; cases h
  | succ fuel ih =>
    intro stack visited h
    cases stack with
    | nil => cases h
    | cons current rest =>
      unfold stackSearch at h
      by_cases hc : current = target
      · exact ⟨current, List.mem_cons_self _ _, hc ▸ Reach.refl _⟩
      · rw [if_neg hc] at h
        by_cases hv : visited.contains current = true
        · rw [if_pos hv] at h
          obtain ⟨s, hs, hr⟩ := ih rest visited h
          exact ⟨s, List.mem_cons_of_mem _ hs, hr⟩
        · rw [if_neg hv] at h
          obtain ⟨s, hs, hr⟩ := ih _ _ h
          rcases List.mem_append.mp hs with hs1 | hs2
          · exact ⟨current, List.mem_cons_self _ _, Reach.step hs1 hr⟩
          · exact ⟨s, List.mem_cons_of_mem _ hs2, hr⟩

theorem searchPotential_step (adj : String → List String) (supp : Finset String)
    (hsupp : ∀ x, x ∉ supp → adj x = [])
    (current : String) (rest visited : List String) (hnv : current ∉ visited) :
    searchPotential adj supp (adj current ++ rest) (current :: visited) <
      searchPotential adj supp (current :: rest) visited := by
  unfold searchPotential
  have hfilter : supp.filter (fun x => x ∉ current :: visited) =
      (supp.filter (fun x => x ∉ visited)).erase current := by
    ext x
    simp only [Finset.mem_filter, Finset.mem_erase, List.mem_cons]
    constructor
    · rintro ⟨hx, hnc⟩
      push_neg at hnc
      exact ⟨hnc.1, hx, hnc.2⟩
    · rintro ⟨hne, hx, hnv2⟩
      exact ⟨hx, by push_neg; exact ⟨hne, hnv2⟩⟩
  rw [hfilter, List.length_append]
  by_cases hmem : current ∈ supp
  · have hmemf : current ∈ supp.filter (fun x => x ∉ visited) :=
      Finset.mem_filter.mpr ⟨hmem, hnv⟩
    have hsum : (∑ x ∈ (supp.filter fun x => x ∉ visited).erase current, (adj x).length) +
        (adj current).length = ∑ x ∈ supp.filter (fun x => x ∉ visited), (adj x).length :=
      Finset.sum_erase_add _ _ hmemf
    simp only [List.length_cons]
    omega
  · have hzero : (adj current).length = 0 := by rw [hsupp current hmem]; rfl
    have herase : ((supp.filter (fun x => x ∉ visited)).erase current) =
        supp.filter (fun x => x ∉ visited) := by
      apply Finset.erase_eq_of_not_mem
      intro hmemf
      exact hmem (Finset.mem_filter.mp hmemf).1
    rw [herase, hzero]
    simp [List.length_cons]

theorem pathTo_cons_inv {adj : String → List String} {t s h : String} {ltail : List String}
    (hp : PathTo adj t s (h :: ltail)) :
    h = s ∧ ∃ y, y ∈ adj s ∧ PathTo adj t y ltail := by
  cases hp with
  | cons hy hp2 => exact ⟨rfl, _, hy, hp2⟩

theorem stackSearch_complete (adj : String → List String) (target : String)
    (supp : Finset String) (hsupp : ∀ x, x ∉ supp → adj x = []) :
    ∀ fuel stack visited,
      searchPotential adj supp stack visited < fuel →
      (∃ s ∈ stack, ∃ l, PathTo adj target s l ∧ ∀ v ∈ l, v ∉ visited) →
      stackSearch adj target fuel stack visited = true := by
  intro fuel
  induction fuel with
  | zero =>
    intro stack visited hpot _
    exact absurd hpot (Nat.not_lt_zero _)
  | succ fuel ih =>
    intro stack visited hpot hw
    classical
    have hex : ∃ n, ∃ s, s ∈ stack ∧ ∃ l, PathTo adj target s l ∧
        (∀ v ∈ l, v ∉ visited) ∧ l.length = n := by
      obtain ⟨s0, hs0, l0, hp0, hav0⟩ := hw
      exact ⟨l0.length, s0, hs0, l0, hp0, hav0, rfl⟩
    obtain ⟨s, hs, l, hp, hav, hlen⟩ := Nat.find_spec hex
    have hminimal : ∀ s2 ∈ stack, ∀ l2, PathTo adj target s2 l2 →
        (∀ v ∈ l2, v ∉ visited) → l.length ≤ l2.length := by
      intro s2 hs2 l2 hp2 hav2
      by_contra hlt
      push_neg at hlt
      exact Nat.find_min hex (by omega) ⟨s2, hs2, l2, hp2, hav2, rfl⟩
    cases stack with
    | nil => cases hs
    | cons current rest =>
      unfold stackSearch
      by_cases hc : current = target
      · rw [if_pos hc]
      · rw [if_neg hc]
        by_cases hv : visited.contains current = true
        · rw [if_pos hv]
          have hcur_vis : current ∈ visited := by
            simpa [List.contains, List.elem_iff] using hv
          have hsne : s ≠ current := by
            rintro rfl
            obtain ⟨y, l2, hleq, hy, hp2⟩ := pathTo_cons_of_ne hp hc
            exact hav s (by rw [hleq]; exact List.mem_cons_self _ _) hcur_vis
          have hs2 : s ∈ rest := by
            rcases List.mem_cons.mp hs with h | h
            · exact absurd h hsne
            · exact h
          refine ih rest visited ?_ ⟨s, hs2, l, hp, hav⟩
          unfold searchPotential at hpot ⊢
          simp only [List.length_cons] at hpot
          omega
        · rw [if_neg hv]
          have hcur_nvis : current ∉ visited := fun hmem =>
            hv (by simpa [List.contains, List.elem_iff] using hmem)
          have hwit : ∃ s2 ∈ adj current ++ rest, ∃ l2, PathTo adj target s2 l2 ∧
              ∀ v ∈ l2, v ∉ current :: visited := by
            by_cases hsc : s = current
            · subst hsc
              obtain ⟨y, l2, hleq, hy, hp2⟩ := pathTo_cons_of_ne hp hc
              have hcurl2 : s ∉ l2 := by
                intro hmem
                obtain ⟨l3, hp3, hle3, hsub3⟩ := pathTo_mem_suffix hp2 s hmem
                have hge := hminimal s (List.mem_cons_self _ _) l3 hp3
                  (fun v hv3 => hav v (by rw [hleq]; exact List.mem_cons_of_mem _ (hsub3 v hv3)))
                have : l.length = l2.length + 1 := by rw [hleq]; rfl
                omega
              refine ⟨y, List.mem_append.mpr (Or.inl hy), l2, hp2, ?_⟩
              intro v hv2 hmemc
              rcases List.mem_cons.mp hmemc with rfl | hvv
              · exact hcurl2 hv2
              · exact hav v (by rw [hleq]; exact List.mem_cons_of_mem _ hv2) hvv
            · have hs2 : s ∈ rest := by
                rcases List.mem_cons.mp hs with h | h
                · exact absurd h hsc
                · exact h
              have hcurl : current ∉ l := by
                intro hmem
                cases l with
                | nil => cases hmem
                | cons lh ltail =>
                  obtain ⟨hlh, y, hy, hp2⟩ := pathTo_cons_inv hp
                  subst hlh
                  rcases List.mem_cons.mp hmem with heq | hmem2
                  · exact hsc heq.symm
                  · obtain ⟨l3, hp3, hle3, hsub3⟩ := pathTo_mem_suffix hp2 current hmem2
                    have hge := hminimal current (List.mem_cons_self _ _) l3 hp3
                      (fun v hv3 => hav v (List.mem_cons_of_mem _ (hsub3 v hv3)))
                    simp only [List.length_cons] at hge ⊢
                    omega
              refine ⟨s, List.mem_append.mpr (Or.inr hs2), l, hp, ?_⟩
              intro v hv2 hmemc
              rcases List.mem_cons.mp hmemc with rfl | hvv
              · exact hcurl hv2
              · exact hav v hv2 hvv
          refine ih _ _ ?_ hwit
          have hstep := searchPotential_step adj supp hsupp current rest visited hcur_nvis
          omega

theorem searchFuel_sufficient (nodes : Graph) (hnd : (keys nodes).Nodup)
    (nid : String) (deps : List String) (d : String) :
    searchPotential (setAdjFun nodes nid deps) (insert nid (keys nodes).toFinset) [d] [] <
      searchFuel nodes deps := by
  unfold searchPotential searchFuel
  have hfilter : (insert nid (keys nodes).toFinset).filter (fun x => x ∉ ([] : List String)) =
      insert nid (keys nodes).toFinset :=
    Finset.filter_true_of_mem (fun x _ => List.not_mem_nil x)
  rw [hfilter]
  have hins : insert nid (keys nodes).toFinset =
      insert nid ((keys nodes).toFinset.erase nid) := by
    ext x
    simp only [Finset.mem_insert, Finset.mem_erase]
    constructor
    · rintro (rfl | hx)
      · exact Or.inl rfl
      · by_cases hxn : x = nid
        · exact Or.inl hxn
        · exact Or.inr ⟨hxn, hx⟩
    · rintro (rfl | ⟨_, hx⟩)
      · exact Or.inl rfl
      · exact Or.inr hx
  rw [hins, Finset.sum_insert (Finset.not_mem_erase _ _)]
  have hnid : setAdjFun nodes nid deps nid = deps.dedup := by
    simp [setAdjFun]
  have hbound1 : (setAdjFun nodes nid deps nid).length ≤ deps.length := by
    rw [hnid]
    exact (List.dedup_sublist deps).length_le
  have hbound2 :
      (∑ x ∈ (keys nodes).toFinset.erase nid, (setAdjFun nodes nid deps x).length) ≤
        (nodes.map fun p => (get_deps_list p.2).length).sum := by
    have hpoint : ∀ x ∈ (keys nodes).toFinset.erase nid,
        (setAdjFun nodes nid deps x).length ≤
          (get_deps_list ((nodes.lookup x).getD {})).length := by
      intro x hx
      obtain ⟨hxn, hxk⟩ := Finset.mem_erase.mp hx
      rw [List.mem_toFinset] at hxk
      obtain ⟨n, hn⟩ := Option.isSome_iff_exists.mp ((lookup_isSome_iff nodes x).mpr hxk)
      have : setAdjFun nodes nid deps x =
          ((get_deps_list n).filter fun d2 => (nodes.lookup d2).isSome).dedup := by
        simp [setAdjFun, hxn, hn]
      rw [this, hn]
      exact ((List.dedup_sublist _).trans (List.filter_sublist _)).length_le
    calc (∑ x ∈ (keys nodes).toFinset.erase nid, (setAdjFun nodes nid deps x).length)
        ≤ ∑ x ∈ (keys nodes).toFinset.erase nid,
            (get_deps_list ((nodes.lookup x).getD {})).length := Finset.sum_le_sum hpoint
      _ ≤ ∑ x ∈ (keys nodes).toFinset,
            (get_deps_list ((nodes.lookup x).getD {})).length :=
          Finset.sum_le_sum_of_subset (Finset.erase_subset _ _)
      _ = ((keys nodes).map fun x => (get_deps_list ((nodes.lookup x).getD {})).length).sum :=
          List.sum_toFinset _ hnd
      _ = (nodes.map fun p => (get_deps_list p.2).length).sum := by
          unfold keys
          rw [List.map_map]
          congr 1
          apply List.map_congr_left
          intro p hp
          simp only [Function.comp_apply]
          rw [mem_lookup_of_nodup hnd hp]
          rfl
      _ = (nodes.map fun p => (get_deps_list p.2).length).sum := rfl
  simp only [List.length_cons, List.length_nil]
  omega

theorem vfsDepErrs_nil {nodes : Graph} {nid : String} {deps : List String}
    (h : vfsDepErrs nodes nid deps = []) :
    ∀ d ∈ deps, (nodes.lookup d).isSome ∧ d ≠ nid := by
  intro d hd
  unfold vfsDepErrs at h
  rw [List.filterMap_eq_nil_iff] at h
  have hfd := h d hd
  by_cases h1 : (nodes.lookup d).isNone
  · rw [if_pos h1] at hfd; cases hfd
  · rw [if_neg h1] at hfd
    by_cases h2 : d = nid
    · rw [if_pos h2] at hfd; cases hfd
    · exact ⟨by simpa [Option.isNone_iff_eq_none, ← Option.ne_none_iff_isSome] using h1, h2⟩

theorem setAdjFun_subset_forward {nodes : Graph} {nid : String} {deps : List String}
    {node : DNode} (hn : nodes.lookup nid = some node)
    (hsub : ∀ d ∈ deps, d ∈ get_deps_list node)
    (hex : ∀ d ∈ deps, (nodes.lookup d).isSome) :
    ∀ x y, y ∈ setAdjFun nodes nid deps x → y ∈ forwardAdj nodes x := by
  intro x y hy
  unfold setAdjFun at hy
  unfold forwardAdj buildAdj
  by_cases hx : x = nid
  · subst hx
    rw [if_pos rfl] at hy
    rw [hn]
    dsimp only
    have hyd : y ∈ deps := List.mem_dedup.mp hy
    exact List.mem_filter.mpr ⟨hsub y hyd, hex y hyd⟩
  · rw [if_neg hx] at hy
    cases hl : nodes.lookup x with
    | none =>
      rw [hl] at hy
      dsimp only at hy
      cases hy
    | some n2 =>
      rw [hl] at hy
      dsimp only at hy ⊢
      exact List.mem_dedup.mp hy

theorem validate_for_set_depends_on_eq (nodes : Graph) (nid : String) (node : DNode)
    (deps : List String) (hn : nodes.lookup nid = some node) :
    validate_for_set nid "depends_on" (.list deps) nodes =
      (vfsDepErrs nodes nid deps ++ vfsIronErrs nodes nid node deps ++
        vfsCycleErrs nodes nid node deps, vfsDepWarns nodes nid node.level deps) := by
  unfold validate_for_set
  rw [hn]
  dsimp only
  rw [if_neg (by decide), if_pos rfl]

/-- C8: the incremental cycle check on depends_on updates.  First: whenever
substituting the node's outgoing edges by the proposed list creates a cycle
through the node, validate_for_set returns a non-empty error list, and
cmd_set therefore writes nothing.  Second: when the existing forward-edge
graph is acyclic and the proposed list only reorders or prunes the node's
current edges, the cycle-error component is empty (no false flag), so the
errors are exactly the basic and iron-rule components.  Third: the concrete
DEC-001/DEC-002 scenario is rejected and not persisted. -/
theorem C8_incremental_cycle_check (nodes : Graph) (hnd : (keys nodes).Nodup)
    (nid : String) (deps : List String) :
    (HasCycleThrough (setAdjFun nodes nid deps) nid →
      (validate_for_set nid "depends_on" (.list deps) nodes).1 ≠ [] ∧
      cmd_set nodes nid "depends_on" (.list deps) = none) ∧
    (∀ node, nodes.lookup nid = some node → Acyclic (forwardAdj nodes) →
      (∀ d ∈ deps, d ∈ get_deps_list node) →
      vfsCycleErrs nodes nid node deps = [] ∧
      (validate_for_set nid "depends_on" (.list deps) nodes).1 =
        vfsDepErrs nodes nid deps ++ vfsIronErrs nodes nid node deps) ∧
    ((validate_for_set "DEC-001" "depends_on" (.list ["DEC-002"]) gPair).1 ≠ [] ∧
     cmd_set gPair "DEC-001" "depends_on" (.list ["DEC-002"]) = none) := by
  refine ⟨?_, ?_, by decide, by rfl⟩
  · intro hcy
    have hne : (validate_for_set nid "depends_on" (.list deps) nodes).1 ≠ [] := by
      obtain ⟨d, hd_adj, hreach⟩ := hcy
      cases hlook : nodes.lookup nid with
      | none => simp [validate_for_set, hlook]
      | some node =>
        have heq := congrArg Prod.fst (validate_for_set_depends_on_eq nodes nid node deps hlook)
        rw [heq]
        have hd_deps : d ∈ deps := by
          have hnid : setAdjFun nodes nid deps nid = deps.dedup := by simp [setAdjFun]
          rw [hnid] at hd_adj
          exact List.mem_dedup.mp hd_adj
        by_cases hbasic : vfsDepErrs nodes nid deps ++ vfsIronErrs nodes nid node deps = []
        · have hguard : deps ≠ [] := fun h => by rw [h] at hd_deps; cases hd_deps
          have hsearch : stackSearch (setAdjFun nodes nid deps) nid
              (searchFuel nodes deps) [d] [] = true := by
            obtain ⟨l, hl⟩ := reach_pathTo hreach
            refine stackSearch_complete _ nid (insert nid (keys nodes).toFinset)
              (fun x hx => ?_) _ _ _ (searchFuel_sufficient nodes hnd nid deps d)
              ⟨d, List.mem_singleton.mpr rfl, l, hl, fun v _ => List.not_mem_nil v⟩
            have hxn : x ≠ nid := fun h => hx (h ▸ Finset.mem_insert_self _ _)
            have hxk : nodes.lookup x = none := by
              rw [lookup_eq_none_iff]
              intro hmem
              exact hx (Finset.mem_insert_of_mem (List.mem_toFinset.mpr hmem))
            simp [setAdjFun, hxn, hxk]
          have hmem : vfsCycleMsg nid d ∈ vfsCycleErrs nodes nid node deps := by
            unfold vfsCycleErrs
            rw [if_pos ⟨hguard, hbasic⟩]
            exact List.mem_filterMap.mpr ⟨d, hd_deps, by rw [if_pos hsearch]⟩
          intro hnil
          rw [List.append_eq_nil] at hnil
          rw [hnil.2] at hmem
          cases hmem
        · intro hnil
          rw [List.append_eq_nil] at hnil
          exact hbasic hnil.1
    refine ⟨hne, ?_⟩
    unfold cmd_set
    by_cases hlk : (nodes.lookup nid).isNone = true
    · rw [if_pos hlk]
    · rw [if_neg hlk, if_neg hne]
  · intro node hlook hacyclic hsub
    have hcyc : vfsCycleErrs nodes nid node deps = [] := by
      unfold vfsCycleErrs
      by_cases hguard : deps ≠ [] ∧
          vfsDepErrs nodes nid deps ++ vfsIronErrs nodes nid node deps = []
      · rw [if_pos hguard]
        rw [List.filterMap_eq_nil_iff]
        intro d hd
        have hdeperrs : vfsDepErrs nodes nid deps = [] := (List.append_eq_nil.mp hguard.2).1
        have hex : ∀ d2 ∈ deps, (nodes.lookup d2).isSome := fun d2 hd2 =>
          (vfsDepErrs_nil hdeperrs d2 hd2).1
        by_cases hsearch : stackSearch (setAdjFun nodes nid deps) nid
            (searchFuel nodes deps) [d] [] = true
        · exfalso
          obtain ⟨s, hsmem, hr⟩ := stackSearch_sound _ _ _ _ _ hsearch
          rw [List.mem_singleton] at hsmem
          subst hsmem
          have hrf : Reach (forwardAdj nodes) s nid :=
            reach_mono (setAdjFun_subset_forward hlook hsub hex) hr
          have hdfwd : s ∈ forwardAdj nodes nid := by
            unfold forwardAdj buildAdj
            rw [hlook]
            dsimp only
            exact List.mem_filter.mpr ⟨hsub s hd, hex s hd⟩
          exact hacyclic nid ⟨s, hdfwd, hrf⟩
        · rw [if_neg hsearch]
      · rw [if_neg hguard]
    refine ⟨hcyc, ?_⟩
    have heq := congrArg Prod.fst (validate_for_set_depends_on_eq nodes nid node deps hlook)
    rw [heq, hcyc, List.append_nil]

/-- Witness for C8 on the two-node scenario graph. -/
theorem C8_incremental_cycle_check_witness :
    (validate_for_set "DEC-001" "depends_on" (.list ["DEC-002"]) gPair).1 ≠ [] :=
  (C8_incremental_cycle_check gPair (by decide) "DEC-001" ["DEC-002"]).2.2.1

theorem list_contains_iff {l : List String} {a : String} : l.contains a = true ↔ a ∈ l := by
  simp [List.contains, List.elem_iff]

theorem reachIn_zero_eq {cands : String → List String} {s u : String}
    (h : ReachIn cands s 0 u) : u = s := by
  cases h; rfl

theorem minDist_exists {cands : String → List String} {s u : String} {n : Nat}
    (h : ReachIn cands s n u) : ∃ d, MinDist cands s u d ∧ d ≤ n := by
  classical
  have hex : ∃ m, ReachIn cands s m u := ⟨n, h⟩
  exact ⟨Nat.find hex, ⟨Nat.find_spec hex, fun j hj => Nat.find_min hex hj⟩,
    Nat.find_min' hex h⟩

theorem minDist_pred {cands : String → List String} {s u : String} {d : Nat}
    (h : MinDist cands s u (d + 1)) :
    ∃ p, MinDist cands s p d ∧ u ∈ cands p := by
  obtain ⟨hr, hmin⟩ := h
  cases hr with
  | succ hp hy =>
    obtain ⟨d2, hmd2, hle⟩ := minDist_exists hp
    have heq : d2 = d := by
      by_contra hne
      exact hmin (d2 + 1) (by omega) (ReachIn.succ hmd2.1 hy)
    subst heq
    exact ⟨_, hmd2, hy⟩

theorem minDist_exists_le {cands : String → List String} {s u : String} {d : Nat}
    (h : MinDist cands s u d) : ∀ j, j ≤ d → ∃ w, MinDist cands s w j := by
  induction d generalizing u with
  | zero =>
    intro j hj
    have hj0 : j = 0 := Nat.le_zero.mp hj
    subst hj0
    exact ⟨u, h⟩
  | succ d ih =>
    intro j hj
    rcases Nat.lt_or_ge j (d + 1) with hlt | hge
    · obtain ⟨p, hp, _⟩ := minDist_pred h
      exact ih hp j (by omega)
    · have hje : j = d + 1 := by omega
      subst hje
      exact ⟨u, h⟩

theorem processNode_sound (g : Graph) (cands : String → List String)
    (rf : String → String → String) (vis : List String) (nid : String) {e : CascadeEffect}
    (h : e ∈ processNode g cands rf vis nid) : e.node ∈ cands nid ∧ e.node ∉ vis := by
  unfold processNode at h
  obtain ⟨dep, hdep, hsome⟩ := List.mem_filterMap.mp h
  by_cases hv : vis.contains dep = true
  · rw [if_pos hv] at hsome; cases hsome
  · rw [if_neg hv] at hsome
    injection hsome with he
    subst he
    exact ⟨hdep, fun hmem => hv (list_contains_iff.mpr hmem)⟩

theorem processNode_complete (g : Graph) (cands : String → List String)
    (rf : String → String → String) (vis : List String) (nid : String) {u : String}
    (hu : u ∈ cands nid) (hnv : u ∉ vis) :
    ∃ e ∈ processNode g cands rf vis nid, e.node = u := by
  refine ⟨{ node := u
            current_state :=
              (match g.lookup u with | some n => n.state.getD "unknown" | none => "unknown")
            reason := rf nid u
            cross_directory := scopeOf g nid ≠ scopeOf g u },
    List.mem_filterMap.mpr ⟨u, hu, ?_⟩, rfl⟩
  rw [if_neg (fun hc => hnv (list_contains_iff.mp hc))]

theorem cascadeFold_visited (g : Graph) (cands : String → List String)
    (rf : String → String → String) :
    ∀ (l : List String) (acc : List CascadeEffect × List String) (u : String),
      (u ∈ (l.foldl (cascadeStep g cands rf) acc).2 ↔ u ∈ acc.2 ∨ u ∈ l) := by
  intro l
  induction l with
  | nil => intro acc u; simp
  | cons x xs ih =>
    intro acc u
    rw [List.foldl_cons, ih]
    unfold cascadeStep
    by_cases hx : acc.2.contains x = true
    · rw [if_pos hx]
      have hxm : x ∈ acc.2 := list_contains_iff.mp hx
      simp only [List.mem_cons]
      constructor
      · rintro (h | h)
        · exact Or.inl h
        · exact Or.inr (Or.inr h)
      · rintro (h | rfl | h)
        · exact Or.inl h
        · exact Or.inl hxm
        · exact Or.inr h
    · rw [if_neg hx]
      dsimp only
      simp only [List.mem_cons]
      tauto

theorem cascadeFold_effects_mono (g : Graph) (cands : String → List String)
    (rf : String → String → String) :
    ∀ (l : List String) (acc : List CascadeEffect × List String),
      ∀ e ∈ acc.1, e ∈ (l.foldl (cascadeStep g cands rf) acc).1 := by
  intro l
  induction l with
  | nil => intro acc e he; exact he
  | cons x xs ih =>
    intro acc e he
    rw [List.foldl_cons]
    apply ih
    unfold cascadeStep
    by_cases hx : acc.2.contains x = true
    · rw [if_pos hx]; exact he
    · rw [if_neg hx]
      exact List.mem_append.mpr (Or.inl he)

theorem cascadeFold_sound (g : Graph) (cands : String → List String)
    (rf : String → String → String) :
    ∀ (l : List String) (acc : List CascadeEffect × List String) (e : CascadeEffect),
      e ∈ (l.foldl (cascadeStep g cands rf) acc).1 →
      e ∈ acc.1 ∨ ∃ p, p ∈ l ∧ p ∉ acc.2 ∧ e.node ∈ cands p ∧ e.node ∉ acc.2 := by
  intro l
  induction l with
  | nil => intro acc e he; exact Or.inl he
  | cons x xs ih =>
    intro acc e he
    rw [List.foldl_cons] at he
    rcases ih _ e he with h1 | ⟨p, hp, hp2, hc, hn⟩
    · unfold cascadeStep at h1
      by_cases hx : acc.2.contains x = true
      · rw [if_pos hx] at h1
        exact Or.inl h1
      · rw [if_neg hx] at h1
        dsimp only at h1
        rcases List.mem_append.mp h1 with h2 | h2
        · exact Or.inl h2
        · obtain ⟨hcand, hnv⟩ := processNode_sound g cands rf _ _ h2
          exact Or.inr ⟨x, List.mem_cons_self _ _,
            fun hmem => hx (list_contains_iff.mpr hmem), hcand,
            fun hmem => hnv (List.mem_cons_of_mem _ hmem)⟩
    · unfold cascadeStep at hp2 hn
      by_cases hx : acc.2.contains x = true
      · rw [if_pos hx] at hp2 hn
        exact Or.inr ⟨p, List.mem_cons_of_mem _ hp, hp2, hc, hn⟩
      · rw [if_neg hx] at hp2 hn
        dsimp only at hp2 hn
        exact Or.inr ⟨p, List.mem_cons_of_mem _ hp,
          fun hm => hp2 (List.mem_cons_of_mem _ hm), hc,
          fun hm => hn (List.mem_cons_of_mem _ hm)⟩

theorem cascadeFold_complete (g : Graph) (cands : String → List String)
    (rf : String → String → String) :
    ∀ (l : List String) (acc : List CascadeEffect × List String) (p u : String),
      l.Nodup → p ∈ l → p ∉ acc.2 → u ∈ cands p → u ∉ acc.2 → u ∉ l →
      ∃ e ∈ (l.foldl (cascadeStep g cands rf) acc).1, e.node = u := by
  intro l
  induction l with
  | nil => intro acc p u _ hp; cases hp
  | cons x xs ih =>
    intro acc p u hnd hp hpacc hu huacc hul
    rw [List.foldl_cons]
    rw [List.nodup_cons] at hnd
    rcases List.mem_cons.mp hp with rfl | hpxs
    · have hx : ¬ acc.2.contains p = true := fun hc => hpacc (list_contains_iff.mp hc)
      have hup : u ∉ (p :: acc.2) := by
        intro hm
        rcases List.mem_cons.mp hm with rfl | hm2
        · exact hul (List.mem_cons_self _ _)
        · exact huacc hm2
      obtain ⟨e, he, hen⟩ := processNode_complete g cands rf (p :: acc.2) p hu hup
      refine ⟨e, ?_, hen⟩
      apply cascadeFold_effects_mono
      unfold cascadeStep
      rw [if_neg hx]
      exact List.mem_append.mpr (Or.inr he)
    · have hpx : p ≠ x := fun h => hnd.1 (h ▸ hpxs)
      have hux : u ≠ x := fun h => hul (h ▸ List.mem_cons_self _ _)
      apply ih (cascadeStep g cands rf acc x) p u hnd.2 hpxs ?_ hu ?_
        (fun h => hul (List.mem_cons_of_mem _ h))
      · unfold cascadeStep
        by_cases hx : acc.2.contains x = true
        · rw [if_pos hx]; exact hpacc
        · rw [if_neg hx]
          dsimp only
          intro hm
          rcases List.mem_cons.mp hm with h | h
          · exact hpx h
          · exact hpacc h
      · unfold cascadeStep
        by_cases hx : acc.2.contains x = true
        · rw [if_pos hx]; exact huacc
        · rw [if_neg hx]
          dsimp only
          intro hm
          rcases List.mem_cons.mp hm with h | h
          · exact hux h
          · exact huacc h

theorem cascadeRound_visited (g : Graph) (cands : String → List String)
    (rf : String → String → String) (changed visited : List String) (u : String) :
    u ∈ (cascadeRound g cands rf changed visited).2 ↔ u ∈ visited ∨ u ∈ changed := by
  unfold cascadeRound
  rw [cascadeFold_visited]
  constructor
  · rintro (h | h)
    · exact Or.inl h
    · exact Or.inr (List.mem_dedup.mp (sortLe_mem.mp h))
  · rintro (h | h)
    · exact Or.inl h
    · exact Or.inr (sortLe_mem.mpr (List.mem_dedup.mpr h))

theorem cascadeRound_sound (g : Graph) (cands : String → List String)
    (rf : String → String → String) (changed visited : List String) (e : CascadeEffect)
    (h : e ∈ (cascadeRound g cands rf changed visited).1) :
    ∃ p, p ∈ changed ∧ p ∉ visited ∧ e.node ∈ cands p ∧ e.node ∉ visited := by
  unfold cascadeRound at h
  rcases cascadeFold_sound g cands rf _ _ e h with h1 | ⟨p, hp, h2, h3, h4⟩
  · cases h1
  · exact ⟨p, List.mem_dedup.mp (sortLe_mem.mp hp), h2, h3, h4⟩

theorem cascadeRound_complete (g : Graph) (cands : String → List String)
    (rf : String → String → String) (changed visited : List String) (p u : String)
    (hp : p ∈ changed) (hpv : p ∉ visited) (hu : u ∈ cands p) (huv : u ∉ visited)
    (huc : u ∉ changed) :
    ∃ e ∈ (cascadeRound g cands rf changed visited).1, e.node = u := by
  unfold cascadeRound
  apply cascadeFold_complete g cands rf _ _ p u
  · exact (sortLe_perm _ _).nodup_iff.mpr changed.nodup_dedup
  · exact sortLe_mem.mpr (List.mem_dedup.mpr hp)
  · exact hpv
  · exact hu
  · exact huv
  · intro hm
    exact huc (List.mem_dedup.mp (sortLe_mem.mp hm))

theorem cascadeLoop_nil (g : Graph) (cands : String → List String)
    (rf : String → String → String) (fuel : Nat) (visited : List String) :
    cascadeLoop g cands rf fuel [] visited = [] := by
  cases fuel with
  | zero => rfl
  | succ fuel => rw [cascadeLoop, if_pos rfl]

theorem cascadeLoop_spec (g : Graph) (cands : String → List String)
    (rf : String → String → String) (start : String)
    (hC : ∀ x y, y ∈ cands x → y ∈ keys g) :
    ∀ (fuel : Nat) (changed visited : List String) (c : Nat),
      ((keys g).toFinset \ visited.toFinset).card < fuel →
      (∀ u, u ∈ visited ↔ ∃ j, j < c ∧ MinDist cands start u j) →
      (∀ u, MinDist cands start u c → u ∈ changed) →
      (∀ u, u ∈ changed → ∃ j, j ≤ c ∧ ReachIn cands start j u) →
      (∀ u, u ∈ changed → u ∈ keys g) →
      ((∀ u d, MinDist cands start u d → c + 1 ≤ d →
        ∃ w, (cascadeLoop g cands rf fuel changed visited).get? (d - c - 1) = some w ∧
          u ∈ w.map (·.node)) ∧
       (∀ i w u, (cascadeLoop g cands rf fuel changed visited).get? i = some w →
        u ∈ w.map (·.node) → ∃ j, j ≤ c + i + 1 ∧ ReachIn cands start j u)) := by
  intro fuel
  induction fuel with
  | zero =>
    intro changed visited c hfuel _ _ _ _
    exact absurd hfuel (Nat.not_lt_zero _)
  | succ fuel ih =>
    intro changed visited c hfuel hvis hch1 hch2 hchk
    by_cases hempty : changed = []
    · subst hempty
      rw [cascadeLoop_nil]
      constructor
      · intro u d hd hdc
        obtain ⟨w0, hw0⟩ := minDist_exists_le hd c (by omega)
        exact absurd (hch1 w0 hw0) (List.not_mem_nil _)
      · intro i w u hget
        rw [List.get?_nil] at hget
        cases hget
    · rcases hpair : cascadeRound g cands rf changed visited with ⟨effects, visited2⟩
      have hloop : cascadeLoop g cands rf (fuel + 1) changed visited =
          (if effects = [] then
            cascadeLoop g cands rf fuel ((effects.map (·.node)).dedup) visited2
          else effects ::
            cascadeLoop g cands rf fuel ((effects.map (·.node)).dedup) visited2) := by
        rw [cascadeLoop, if_neg hempty, hpair]
      have hv2 : ∀ u, u ∈ visited2 ↔ u ∈ visited ∨ u ∈ changed := by
        intro u
        have h := cascadeRound_visited g cands rf changed visited u
        rw [hpair] at h
        exact h
      have hsound : ∀ e ∈ effects, ∃ p, p ∈ changed ∧ p ∉ visited ∧
          e.node ∈ cands p ∧ e.node ∉ visited := by
        intro e he
        exact cascadeRound_sound g cands rf changed visited e (by rw [hpair]; exact he)
      have hcomp : ∀ p u, p ∈ changed → p ∉ visited → u ∈ cands p → u ∉ visited →
          u ∉ changed → ∃ e ∈ effects, e.node = u := by
        intro p u hp hpv hu huv huc
        have h := cascadeRound_complete g cands rf changed visited p u hp hpv hu huv huc
        rw [hpair] at h
        exact h
      have hv2dist : ∀ u, u ∈ visited2 ↔ ∃ j, j < c + 1 ∧ MinDist cands start u j := by
        intro u
        rw [hv2 u]
        constructor
        · rintro (h | h)
          · obtain ⟨j, hj, hmd⟩ := (hvis u).mp h
            exact ⟨j, by omega, hmd⟩
          · obtain ⟨j, hj, hr⟩ := hch2 u h
            obtain ⟨d2, hd2, hle⟩ := minDist_exists hr
            exact ⟨d2, by omega, hd2⟩
        · rintro ⟨j, hj, hmd⟩
          by_cases hjc : j < c
          · exact Or.inl ((hvis u).mpr ⟨j, hjc, hmd⟩)
          · have hjeq : j = c := by omega
            subst hjeq
            exact Or.inr (hch1 u hmd)
      have hefffirst : ∀ u, MinDist cands start u (c + 1) → ∃ e ∈ effects, e.node = u := by
        intro u hd
        obtain ⟨p, hpd, hpc⟩ := minDist_pred hd
        have hpch : p ∈ changed := hch1 p hpd
        have hpnv : p ∉ visited := by
          intro hm
          obtain ⟨j, hj, hmd⟩ := (hvis p).mp hm
          exact hpd.2 j hj hmd.1
        have hunv : u ∉ visited := by
          intro hm
          obtain ⟨j, hj, hmd⟩ := (hvis u).mp hm
          exact hd.2 j (by omega) hmd.1
        have hunc : u ∉ changed := by
          intro hm
          obtain ⟨j, hj, hr⟩ := hch2 u hm
          exact hd.2 j (by omega) hr
        exact hcomp p u hpch hpnv hpc hunv hunc
      have heffreach : ∀ e ∈ effects, ∃ j, j ≤ c + 1 ∧ ReachIn cands start j e.node := by
        intro e he
        obtain ⟨p, hp, hpv, hcand, _⟩ := hsound e he
        obtain ⟨j, hj, hr⟩ := hch2 p hp
        exact ⟨j + 1, by omega, ReachIn.succ hr hcand⟩
      by_cases heff : effects = []
      · rw [hloop, if_pos heff]
        subst heff
        rw [List.map_nil, List.dedup_nil, cascadeLoop_nil]
        constructor
        · intro u d hd hdc
          obtain ⟨w0, hw0⟩ := minDist_exists_le hd (c + 1) (by omega)
          obtain ⟨e, he, _⟩ := hefffirst w0 hw0
          cases he
        · intro i w u hget
          rw [List.get?_nil] at hget
          cases hget
      · rw [hloop, if_neg heff]
        have hnext_mem : ∀ u, u ∈ (effects.map (·.node)).dedup ↔
            ∃ e ∈ effects, e.node = u := by
          intro u
          rw [List.mem_dedup, List.mem_map]
        have hfuel2 : ((keys g).toFinset \ visited2.toFinset).card < fuel := by
          obtain ⟨e0, he0⟩ := List.exists_mem_of_ne_nil effects heff
          obtain ⟨p, hp, hpv, _, _⟩ := hsound e0 he0
          have hpk : p ∈ keys g := hchk p hp
          have hss : (keys g).toFinset \ visited2.toFinset ⊂
              (keys g).toFinset \ visited.toFinset := by
            constructor
            · intro x hx
              rw [Finset.mem_sdiff] at hx ⊢
              refine ⟨hx.1, fun hm => hx.2 ?_⟩
              rw [List.mem_toFinset] at hm ⊢
              exact (hv2 x).mpr (Or.inl hm)
            · intro hsub
              have hpin : p ∈ (keys g).toFinset \ visited.toFinset := by
                rw [Finset.mem_sdiff, List.mem_toFinset, List.mem_toFinset]
                exact ⟨hpk, hpv⟩
              have hpin2 := hsub hpin
              rw [Finset.mem_sdiff, List.mem_toFinset, List.mem_toFinset] at hpin2
              exact hpin2.2 ((hv2 p).mpr (Or.inr hp))
          have := Finset.card_lt_card hss
          omega
        have hrec := ih ((effects.map (·.node)).dedup) visited2 (c + 1) hfuel2 hv2dist
          (fun u hd => (hnext_mem u).mpr (hefffirst u hd))
          (fun u hm => by
            obtain ⟨e, he, heq⟩ := (hnext_mem u).mp hm
            obtain ⟨j, hj, hr⟩ := heffreach e he
            exact ⟨j, hj, heq ▸ hr⟩)
          (fun u hm => by
            obtain ⟨e, he, heq⟩ := (hnext_mem u).mp hm
            obtain ⟨p, hp, _, hcand, _⟩ := hsound e he
            exact heq ▸ hC p e.node hcand)
        constructor
        · intro u d hd hdc
          rcases Nat.lt_or_ge (c + 1) d with hlt | hge
          · obtain ⟨w, hw, hmem⟩ := hrec.1 u d hd (by omega)
            have hidx1 : d - (c + 1) - 1 = d - c - 2 := by omega
            rw [hidx1] at hw
            refine ⟨w, ?_, hmem⟩
            have hidx2 : d - c - 1 = (d - c - 2) + 1 := by omega
            rw [hidx2, List.get?_cons_succ]
            exact hw
          · have hdeq : d = c + 1 := by omega
            subst hdeq
            obtain ⟨e, he, heq⟩ := hefffirst u hd
            refine ⟨effects, ?_, List.mem_map.mpr ⟨e, he, heq⟩⟩
            have hidx : c + 1 - c - 1 = 0 := by omega
            rw [hidx, List.get?_cons_zero]
        · intro i w u hget hmem
          cases i with
          | zero =>
            rw [List.get?_cons_zero] at hget
            injection hget with hw
            subst hw
            obtain ⟨e, he, heq⟩ := List.mem_map.mp hmem
            obtain ⟨j, hj, hr⟩ := heffreach e he
            exact ⟨j, by omega, heq ▸ hr⟩
          | succ i =>
            rw [List.get?_cons_succ] at hget
            obtain ⟨j, hj, hr⟩ := hrec.2 i w u hget hmem
            exact ⟨j, by omega, hr⟩

theorem fwdCands_subset (g : Graph) : ∀ x y, y ∈ fwdCands g x → y ∈ keys g := by
  intro x y hy
  unfold fwdCands get_dependents at hy
  rw [List.mem_flatMap] at hy
  obtain ⟨p, hp, hm⟩ := hy
  rw [List.mem_map] at hm
  obtain ⟨d, _, hd⟩ := hm
  exact hd ▸ List.mem_map.mpr ⟨p, hp, rfl⟩

theorem revCands_subset (g : Graph) : ∀ x y, y ∈ revCands g x → y ∈ keys g := by
  intro x y hy
  unfold revCands at hy
  cases hl : g.lookup x with
  | none => rw [hl] at hy; cases hy
  | some n =>
    rw [hl] at hy
    rw [List.mem_filter] at hy
    exact (lookup_isSome_iff g y).mp (by simpa using hy.2)

theorem cascadeLoop_firstWave (g : Graph) (cands : String → List String)
    (rf : String → String → String) (start : String)
    (hC : ∀ x y, y ∈ cands x → y ∈ keys g) (hk : start ∈ keys g) :
    FirstWaveAtDistance cands start
      (cascadeLoop g cands rf (g.length + 2) [start] []) := by
  have hfuel : ((keys g).toFinset \ ([] : List String).toFinset).card < g.length + 2 := by
    have h1 : (keys g).toFinset.card ≤ (keys g).length := List.toFinset_card_le _
    have h2 : (keys g).length = g.length := List.length_map _ _
    simp only [List.toFinset_nil, Finset.sdiff_empty]
    omega
  have hvis : ∀ u, u ∈ ([] : List String) ↔ ∃ j, j < 0 ∧ MinDist cands start u j := by
    intro u
    simp
  have hch1 : ∀ u, MinDist cands start u 0 → u ∈ [start] := by
    intro u hu
    have heq := reachIn_zero_eq hu.1
    subst heq
    exact List.mem_singleton.mpr rfl
  have hch2 : ∀ u, u ∈ [start] → ∃ j, j ≤ 0 ∧ ReachIn cands start j u := by
    intro u hu
    rw [List.mem_singleton] at hu
    subst hu
    exact ⟨0, Nat.le_refl 0, ReachIn.zero⟩
  have hchk : ∀ u, u ∈ [start] → u ∈ keys g := by
    intro u hu
    rw [List.mem_singleton] at hu
    subst hu
    exact hk
  have hspec := cascadeLoop_spec g cands rf start hC (g.length + 2) [start] [] 0
    hfuel hvis hch1 hch2 hchk
  constructor
  · intro u d hd hd1
    constructor
    · have hone := hspec.1 u d hd (by omega)
      simp only [Nat.sub_zero] at hone
      exact hone
    · intro i w hw hm
      obtain ⟨j, hj, hr⟩ := hspec.2 i w u hw hm
      have hdj : d ≤ j := by
        by_contra hlt
        exact hd.2 j (by omega) hr
      omega
  · intro i w u hw hm
    obtain ⟨j, hj, hr⟩ := hspec.2 i w u hw hm
    exact ⟨j, by omega, hr⟩

/-- C3 (amended): for every graph and start node present in the graph, in
the wave list produced by the cascade (in either direction) every affected
node at shortest-path distance d from the start (uniform edge weights,
edges in the requested direction) occurs in wave d, which is the FIRST
wave in which it occurs, and every node occurring in any wave is reachable
from the start, so unreachable nodes never occur. -/
theorem C3_amended_first_wave_is_shortest_distance
    (g : Graph) (start : String) (h : (g.lookup start).isSome)
    (wf wr : List (List CascadeEffect))
    (hf : cmd_cascade g start = Except.ok wf)
    (hr : cmd_cascade_reverse g start = Except.ok wr) :
    FirstWaveAtDistance (fwdCands g) start wf ∧
    FirstWaveAtDistance (revCands g) start wr := by
  have hk : start ∈ keys g := (lookup_isSome_iff g start).mp h
  have hn : (g.lookup start).isNone = false := by
    cases hl : g.lookup start with
    | none => rw [hl] at h; simp at h
    | some n => rfl
  have hwf : cascadeLoop g (fwdCands g) (fun nid _ => "depends on " ++ nid)
      (g.length + 2) [start] [] = wf := by
    have hf2 := hf
    simp only [cmd_cascade] at hf2
    rw [hn, if_neg Bool.false_ne_true] at hf2
    exact Except.ok.inj hf2
  have hwr : cascadeLoop g (revCands g) (fun nid _ => nid ++ " depends on this")
      (g.length + 2) [start] [] = wr := by
    have hr2 := hr
    simp only [cmd_cascade_reverse] at hr2
    rw [hn, if_neg Bool.false_ne_true] at hr2
    exact Except.ok.inj hr2
  exact ⟨hwf ▸ cascadeLoop_firstWave g (fwdCands g) _ start (fwdCands_subset g) hk,
    hwr ▸ cascadeLoop_firstWave g (revCands g) _ start (revCands_subset g) hk⟩

theorem C3_amended_first_wave_is_shortest_distance_witness :
    (gDup.lookup "DEC-001").isSome = true ∧
    (FirstWaveAtDistance (fwdCands gDup) "DEC-001"
      (cascadeLoop gDup (fwdCands gDup) (fun nid _ => "depends on " ++ nid)
        (gDup.length + 2) ["DEC-001"] []) ∧
     FirstWaveAtDistance (revCands gDup) "DEC-001"
      (cascadeLoop gDup (revCands gDup) (fun nid _ => nid ++ " depends on this")
        (gDup.length + 2) ["DEC-001"] [])) :=
  ⟨by decide,
   C3_amended_first_wave_is_shortest_distance gDup "DEC-001" (by decide)
     (cascadeLoop gDup (fwdCands gDup) (fun nid _ => "depends on " ++ nid)
        (gDup.length + 2) ["DEC-001"] [])
     (cascadeLoop gDup (revCands gDup) (fun nid _ => nid ++ " depends on this")
        (gDup.length + 2) ["DEC-001"] [])
     rfl rfl⟩
